import Mathlib

/-!
Verification of the TreasureHunter / ArchiveDownloader pipeline
(Go sources: main.go, worker.go, downloader.go, and the scanner/extractor
files embedded in the repository README).

Strings are modelled as `List Char` (Go works on bytes; every string the
claims touch is ASCII, where bytes and runes coincide).  Fallible Go code
returns `Except`/`Option`; a Go runtime panic is modelled as `Option.none`.
Filesystem and network effects are modelled by explicit environments and
traces.
-/

namespace ArchiveDownloader

abbrev Str := List Char

/-- Go `unicode.IsSpace` restricted to the Latin-1 range (the only
characters relevant to the claims): space, \t, \n, \v, \f, \r, NEL, NBSP. -/
def goIsSpace (c : Char) : Bool :=
  c = ' ' || c = '\t' || c = '\n' || c = (Char.ofNat 11) || c = (Char.ofNat 12) ||
  c = '\r' || c = (Char.ofNat 0x85) || c = (Char.ofNat 0xA0)

/-- Drop the longest suffix whose characters satisfy `p`. -/
def dropWhileEnd (p : Char → Bool) (s : Str) : Str :=
  (s.reverse.dropWhile p).reverse

/-- Go `strings.TrimFunc`-style trim of both ends by predicate `p`. -/
def goTrimWhile (p : Char → Bool) (s : Str) : Str :=
  dropWhileEnd p (s.dropWhile p)

/-- Go `strings.TrimSpace`. -/
def goTrimSpace (s : Str) : Str := goTrimWhile goIsSpace s

/-- Go `strings.Trim s cutset`: remove leading/trailing chars from `cut`. -/
def goTrimCutset (cut : Str) (s : Str) : Str :=
  goTrimWhile (fun c => cut.contains c) s

/-- Go `strings.HasPrefix s pre` (arguments: prefix first, then string). -/
def listHasPre : Str → Str → Bool
  | [], _ => true
  | _ :: _, [] => false
  | p :: ps, c :: cs => p == c && listHasPre ps cs

/-- Go `strings.Contains s sub`. -/
def containsSub : Str → Str → Bool
  | [], sub => sub.isEmpty
  | s@(_ :: rest), sub => listHasPre sub s || containsSub rest sub

/-- Go `strings.Index s sub`: position of the first occurrence. -/
def findSub : Str → Str → Option Nat
  | [], sub => if sub.isEmpty then some 0 else none
  | s@(_ :: rest), sub =>
    if listHasPre sub s then some 0 else (findSub rest sub).map (· + 1)

/-- ASCII lower-casing.  Go `strings.ToLower` is Unicode-aware, but every
blacklist substring in `isValidURL` and every supported extension is
ASCII-only, and no Unicode lower-casing produces the ASCII letters of those
strings from a non-ASCII character that matters here, so the ASCII map is
observationally equivalent for the predicates we model. -/
def toLowerAscii (s : Str) : Str :=
  s.map fun c => if 'A' ≤ c && c ≤ 'Z' then Char.ofNat (c.toNat + 32) else c

/-- `filepath.Join targetDir name` restricted to the way the program uses it
(a clean directory joined with a bare file name). -/
def joinPath (d n : Str) : Str := d ++ '/' :: n

/-- Go `filepath.Ext`: the suffix starting at the final dot of the final
path element ('' if there is no dot).  Path separator is '/'. -/
def goExt (s : Str) : Str :=
  let lastSegRev := s.reverse.takeWhile (fun c => c ≠ '/')
  let beforeDot := lastSegRev.takeWhile (fun c => c ≠ '.')
  if beforeDot.length == lastSegRev.length then [] else '.' :: beforeDot.reverse

/-- The nine characters `sanitizeFilename` replaces with '_'. -/
def invalidFileChars : Str := ['<', '>', ':', '"', '/', '\\', '|', '?', '*']

/-- downloader.go `sanitizeFilename`.  `none` models the Go runtime panic:
when the trimmed name is longer than 200 and its extension alone exceeds
200 characters, `filename[:200-len(ext)]` slices with a negative bound. -/
def sanitizeFilename (s : Str) : Option Str :=
  let s1 := s.map fun c => if invalidFileChars.contains c then '_' else c
  let s2 := goTrimSpace s1
  let s3 := goTrimCutset ['.'] s2
  if s3.length > 200 then
    let ext := goExt s3
    if 200 < ext.length then none
    else some (s3.take (200 - ext.length) ++ ext)
  else some s3

/-- extractor `isValidURL`. -/
def isValidURL (u : Str) : Bool :=
  if ¬ (listHasPre ("http://".toList) u) && ¬ (listHasPre ("https://".toList) u) then
    false
  else if u.length < 10 then
    false
  else
    let l := toLowerAscii u
    if containsSub l ("example.com".toList) || containsSub l ("example.org".toList) ||
       containsSub l ("localhost".toList) || containsSub l ("127.0.0.1".toList) then
      false
    else
      true

/-! ## Extractor (extractor source embedded in the repository README)

File contents are modelled as the character list of the file; reading
errors are handled at the caller (worker.go) and modelled there. -/

/-- `bufio.ScanLines`: drop a final `\r` from a line. -/
def dropCR (l : Str) : Str :=
  if l.getLast? = some '\r' then l.dropLast else l

/-- The token sequence produced by a `bufio.Scanner` with `ScanLines` over
the content: split at `\n`, no empty final token at EOF, `\r` stripped. -/
def scanLines (content : Str) : List Str :=
  let parts := content.splitOn '\n'
  let parts := if parts.getLast? = some [] then parts.dropLast else parts
  parts.map dropCR

/-- One loop iteration of `extractURLsFromURLFile`: the URL contributed by a
line, if any.  Recognizes `URL=` and `BaseURL=` after trimming. -/
def urlFileLineURL (line : Str) : Option Str :=
  let l := goTrimSpace line
  if listHasPre ("URL=".toList) l then
    let u := goTrimSpace (l.drop 4)
    if u ≠ [] && isValidURL u then some u else none
  else if listHasPre ("BaseURL=".toList) l then
    let u := goTrimSpace (l.drop 8)
    if u ≠ [] && isValidURL u then some u else none
  else none

/-- extractor `extractURLsFromURLFile` on the file's content.  The Go code
appends matches to a slice: there is no deduplication on this path. -/
def extractURLsFromURLFile (content : Str) : List Str :=
  (scanLines content).filterMap urlFileLineURL

/-- Character class of `urlPattern`: everything except RE2 `\s`
(tab, newline, form feed, carriage return, space) and the delimiters
<>"{}|\^[]()` and the backtick. -/
def urlTokenChar (c : Char) : Bool :=
  ¬ (c = '\t' || c = '\n' || c = (Char.ofNat 12) || c = '\r' || c = ' ' ||
     c = '<' || c = '>' || c = '"' || c = (Char.ofNat 123) || c = (Char.ofNat 125) ||
     c = '|' || c = '\\' || c = '^' || c = '[' || c = ']' ||
     c = (Char.ofNat 96) || c = '(' || c = ')')

/-- Anchored match of `urlPattern` = `https?://[class]+` at the head of
`s`: the matched token and its length. -/
def urlTokenAt (s : Str) : Option (Str × Nat) :=
  let sch : Option Str :=
    if listHasPre ("https://".toList) s then some ("https://".toList)
    else if listHasPre ("http://".toList) s then some ("http://".toList)
    else none
  match sch with
  | none => none
  | some pre =>
    let run := (s.drop pre.length).takeWhile urlTokenChar
    if run.isEmpty then none else some (pre ++ run, pre.length + run.length)

/-- Anchored match of `markdownLinkPattern` = `\[([^\]]+)\]\(([^)]+)\)`:
the second capture (the link target) and the total match length. -/
def mdLinkAt (s : Str) : Option (Str × Nat) :=
  match s with
  | '[' :: r1 =>
    let txt := r1.takeWhile (fun c => c ≠ ']')
    if txt.isEmpty then none else
    match r1.drop txt.length with
    | ']' :: '(' :: r2 =>
      let tgt := r2.takeWhile (fun c => c ≠ ')')
      if tgt.isEmpty then none else
      match r2.drop tgt.length with
      | ')' :: _ => some (tgt, txt.length + tgt.length + 4)
      | _ => none
    | _ => none
  | _ => none

/-- Case-insensitive prefix test, for the `(?i)` HTML patterns. -/
def listHasPreCI (pre s : Str) : Bool :=
  listHasPre (toLowerAscii pre) (toLowerAscii s)

def isQuote (c : Char) : Bool := c = '"' || c = '\''

/-- Anchored match of `(?i)attr=["']([^"']+)["']` (attr is `href=` or
`src=`): the capture and the total match length. -/
def attrValAt (attr : Str) (s : Str) : Option (Str × Nat) :=
  if listHasPreCI attr s then
    match s.drop attr.length with
    | q :: r1 =>
      if isQuote q then
        let v := r1.takeWhile (fun c => ¬ isQuote c)
        if v.isEmpty then none else
        match r1.drop v.length with
        | q2 :: _ => if isQuote q2 then some (v, attr.length + v.length + 2) else none
        | [] => none
      else none
    | [] => none
  else none

/-- `regexp.FindAll…` driver: scan left to right, emit each leftmost match
and continue after it, else advance one character.  `fuel` bounds the
recursion; with `fuel = s.length` and matchers that consume at least one
character (all of ours do) this is exactly Go's scan. -/
def scanMatches (matchAt : Str → Option (Str × Nat)) : Nat → Str → List Str
  | 0, _ => []
  | _, [] => []
  | fuel + 1, s@(_ :: rest) =>
    match matchAt s with
    | some (v, n) => v :: scanMatches matchAt fuel (s.drop n)
    | none => scanMatches matchAt fuel rest

/-- `urlPattern.FindAllString text -1`. -/
def findURLTokens (s : Str) : List Str := scanMatches urlTokenAt s.length s

/-- The link targets from `markdownLinkPattern.FindAllStringSubmatch`. -/
def findMdTargets (s : Str) : List Str := scanMatches mdLinkAt s.length s

/-- The captures of `htmlHrefPattern` / `htmlSrcPattern`. -/
def findAttrVals (attr : Str) (s : Str) : List Str :=
  scanMatches (attrValAt attr) s.length s

/-- The Go extractors insert valid candidates into a `map[string]bool` and
return its keys; map iteration order is unspecified, so we fix the order
with `List.dedup` (set-level properties are what the claims state). -/
def dedupKeys (l : List Str) : List Str := l.dedup

/-- extractor `extractURLsFromMarkdown` on the file's content. -/
def extractURLsFromMarkdown (content : Str) : List Str :=
  let cands := (findMdTargets content).map goTrimSpace ++
               (findURLTokens content).map goTrimSpace
  dedupKeys (cands.filter isValidURL)

/-- extractor `extractURLsFromHTML` on the file's content. -/
def extractURLsFromHTML (content : Str) : List Str :=
  let cands := (findAttrVals ("href=".toList) content).map goTrimSpace ++
               (findAttrVals ("src=".toList) content).map goTrimSpace ++
               (findURLTokens content).map goTrimSpace
  dedupKeys (cands.filter isValidURL)

/-- extractor `extractURLsFromText` on the file's content. -/
def extractURLsFromText (content : Str) : List Str :=
  dedupKeys (((findURLTokens content).map goTrimSpace).filter isValidURL)

/-! ## Scanner (scanner source embedded in the repository README)

The directory tree is modelled as a finite tree of named entries; traversal
errors do not occur in the model (the claims address the error-free paths;
the Go fallback for an unreadable root behaves like the `N = 0` branch that
is modelled below). -/

inductive FsEntry where
  | file (name : Str)
  | dir (name : Str) (entries : List FsEntry)

def FsEntry.name : FsEntry → Str
  | .file n => n
  | .dir n _ => n

/-- scanner `supportedExtensions`. -/
def supportedExtensions : List Str :=
  [".url".toList, ".md".toList, ".html".toList, ".htm".toList, ".txt".toList]

/-- scanner `isSupportedFile`. -/
def isSupportedFile (filePath : Str) : Bool :=
  supportedExtensions.contains (toLowerAscii (goExt filePath))

/-- `filepath.Walk dir …` as used by `scanDirectory dir true`: every
supported file anywhere beneath `dir` (whose entries are `es`), in
depth-first order; directory nodes themselves are skipped by the callback. -/
def walkFiles (p : Str) : List FsEntry → List Str
  | [] => []
  | .file n :: es =>
    (if isSupportedFile (joinPath p n) then [joinPath p n] else []) ++ walkFiles p es
  | .dir n sub :: es => walkFiles (joinPath p n) sub ++ walkFiles p es

/-- The non-recursive branch of `scanDirectory`: supported files among the
direct children only (`os.ReadDir`, directories skipped). -/
def scanDirectoryFlat (p : Str) (es : List FsEntry) : List Str :=
  es.filterMap fun e =>
    match e with
    | .file n => if isSupportedFile (joinPath p n) then some (joinPath p n) else none
    | .dir _ _ => none

/-- scanner `scanDirectory`: jobs emitted for one directory. -/
def scanDirectory (p : Str) (es : List FsEntry) (recursive : Bool) : List Str :=
  if recursive then walkFiles p es else scanDirectoryFlat p es

/-- scanner `getSubdirectories`: immediate subdirectories with their paths. -/
def getSubdirectories (p : Str) (es : List FsEntry) : List (Str × List FsEntry) :=
  es.filterMap fun e =>
    match e with
    | .file _ => none
    | .dir n sub => some (joinPath p n, sub)

/-- `int(math.Ceil(float64 n / 10.0))` followed by the `== 0` guard.
Exact for every feasible directory count. -/
def batchSizeOf (n : Nat) : Nat :=
  let b := (n + 9) / 10
  if b = 0 then 1 else b

/-- The `for i := 0; i < len; i += batchSize` slicing of the subdirectory
list into consecutive batches. -/
def chunkList (n : Nat) (xs : List α) : List (List α) :=
  if h : xs.isEmpty ∨ n = 0 then []
  else xs.take n :: chunkList n (xs.drop n)
termination_by xs.length
decreasing_by
  simp only [List.isEmpty_iff, not_or] at h
  have h1 : 0 < xs.length := List.length_pos.mpr h.1
  simp only [List.length_drop]
  omega

/-- scanner `scanDirectoryWithBatches`: jobs emitted for one root. -/
def scanDirectoryWithBatches (p : Str) (es : List FsEntry) (recursive : Bool) :
    List Str :=
  if recursive then
    let subdirs := getSubdirectories p es
    if subdirs.isEmpty then
      scanDirectory p es false
    else
      let batchSize := batchSizeOf subdirs.length
      let batches := chunkList batchSize subdirs
      (batches.map fun batch => batch.map fun d => walkFiles d.1 d.2).flatten.flatten ++
        scanDirectory p es false
  else
    scanDirectory p es false

/-! ## Downloader (downloader.go)

The network and filesystem are abstracted by `DlEnv`; `DlTrace` records the
externally visible effects (HTTP requests issued, files created, files
removed).  `url.Parse` is abstracted as an oracle yielding the parsed path
and host.  `Option.none` on the whole call models a Go panic (reachable
only through `sanitizeFilename`, see there). -/

/-- downloader.go `githubRepoPattern` submatch:
`^https?://github\.com/([a-zA-Z0-9_-]+)/([a-zA-Z0-9_.-]+)`.
Both classes exclude `/`, so greedy runs followed by the required
separator are exactly the regexp's leftmost-first semantics. -/
def ghOwnerChar (c : Char) : Bool :=
  ('a' ≤ c && c ≤ 'z') || ('A' ≤ c && c ≤ 'Z') || ('0' ≤ c && c ≤ '9') ||
  c = '_' || c = '-'

def ghRepoChar (c : Char) : Bool := ghOwnerChar c || c = '.'

def ghMatch (u : Str) : Option (Str × Str) :=
  let afterScheme : Option Str :=
    if listHasPre ("https://".toList) u then some (u.drop 8)
    else if listHasPre ("http://".toList) u then some (u.drop 7)
    else none
  match afterScheme with
  | none => none
  | some r0 =>
    if listHasPre ("github.com/".toList) r0 then
      let r1 := r0.drop 11
      let owner := r1.takeWhile ghOwnerChar
      if owner.isEmpty then none else
      match r1.drop owner.length with
      | '/' :: r2 =>
        let repo := r2.takeWhile ghRepoChar
        if repo.isEmpty then none else some (owner, repo)
      | _ => none
    else none

/-- downloader.go `isGitHubRepoURL`. -/
def isGitHubRepoURL (u : Str) : Bool :=
  if containsSub u ("/archive/".toList) || containsSub u ("/releases/".toList) ||
     containsSub u ("raw.githubusercontent.com".toList) then
    false
  else
    (ghMatch u).isSome

/-- Go `strings.TrimSuffix`. -/
def trimSuffixList (s suf : Str) : Str :=
  if listHasPre suf.reverse s.reverse then s.take (s.length - suf.length) else s

/-- Go `strings.IndexAny s chars`. -/
def indexAny (s chars : Str) : Option Nat :=
  s.findIdx? fun c => chars.contains c

/-- downloader.go `extractGitHubInfo`: `("", "")` when the pattern does not
match (Go leaves the named results zero-valued). -/
def extractGitHubInfo (u : Str) : Str × Str :=
  match ghMatch u with
  | none => ([], [])
  | some (owner, repo) =>
    let repo := trimSuffixList repo (".git".toList)
    let repo := match indexAny repo ("/#?".toList) with
                | some idx => repo.take idx
                | none => repo
    (owner, repo)

/-- Go `path.Base`. -/
def goPathBase (p : Str) : Str :=
  if p.isEmpty then ['.']
  else
    let p1 := dropWhileEnd (fun c => c = '/') p
    if p1.isEmpty then ['/']
    else (p1.reverse.takeWhile (fun c => c ≠ '/')).reverse

/-- downloader.go `getFilenameFromURL`, applied to the path and host of the
already-parsed URL (`url.Parse` errors are handled by the caller).
`none` propagates the `sanitizeFilename` panic. -/
def getFilenameFromURL (pth host : Str) : Option Str :=
  let filename := goPathBase pth
  let fnOpt : Option Str :=
    if filename.isEmpty || filename = ['/'] || filename = ['.'] then
      sanitizeFilename ("download_".toList ++ host)
    else some filename
  fnOpt.map fun fn => if fn.contains '.' then fn else fn ++ ".bin".toList

/-- downloader.go `parseContentDisposition` over the split header parts.
`some []` is Go's `""` (no usable filename); `none` is a panic inside
`sanitizeFilename`. -/
def parseCDParts : List Str → Option Str
  | [] => some []
  | p0 :: rest =>
    let part := goTrimSpace p0
    let starRes : Option (Option Str) :=
      if listHasPre ("filename*=".toList) part then
        let v0 := part.drop 10
        let v1 := match findSub v0 ['\'', '\''] with
                  | some idx => v0.drop (idx + 2)
                  | none => v0
        let v := goTrimCutset ['"', '\''] v1
        if v.isEmpty then none else some (sanitizeFilename v)
      else none
    match starRes with
    | some r => r
    | none =>
      if listHasPre ("filename=".toList) part then
        let v := goTrimCutset ['"', '\''] (part.drop 9)
        if v.isEmpty then parseCDParts rest else sanitizeFilename v
      else parseCDParts rest

def parseContentDisposition (header : Str) : Option Str :=
  parseCDParts (header.splitOn ';')

/-- `http.Response` as the Downloader consumes it: `statusText` is Go's
`resp.Status` (for a 404 that is `"404 Not Found"`); `contentDisposition`
is `resp.Header.Get "Content-Disposition"` (`[]` when absent). -/
structure HttpResp where
  statusCode : Nat
  statusText : Str
  contentDisposition : Str
deriving DecidableEq

/-- The world the Downloader interacts with. `copyBody u` is the outcome of
`io.Copy` when streaming the body of the GET of `u`. -/
structure DlEnv where
  parseURL : Str → Option (Str × Str)
  fileExists : Str → Bool
  httpGet : Str → Except Str HttpResp
  createOk : Str → Except Str Unit
  copyBody : Str → Except Str Nat

/-- The externally visible effects of one `downloadURL` call. -/
structure DlTrace where
  requests : List Str
  created : List Str
  removed : List Str
deriving DecidableEq

def DlTrace.empty : DlTrace := ⟨[], [], []⟩

/-- downloader.go `DownloadResult` (`errMsg = none` is a nil error). -/
structure DownloadResult where
  url : Str
  filePath : Str
  success : Bool
  skipped : Bool
  errMsg : Option Str
  bytesWritten : Nat
deriving DecidableEq

/-- A zero-valued result for `u` with resolved path `fp`. -/
def baseResult (u fp : Str) : DownloadResult :=
  ⟨u, fp, false, false, none, 0⟩

/-- `"HTTP %d: %s"` with the numeric code and `resp.Status`. -/
def httpErrMsg (resp : HttpResp) : Str :=
  "HTTP ".toList ++ (Nat.repr resp.statusCode).toList ++ ": ".toList ++ resp.statusText

/-- The `os.Create` / `io.Copy` tail shared by both download paths: create
the file, stream the body of `fetchURL` into it, delete the partial file on
a copy error. -/
def streamToFile (env : DlEnv) (fetchURL fp : Str) (base : DownloadResult)
    (tr : DlTrace) : DownloadResult × DlTrace :=
  match env.createOk fp with
  | .error e =>
    ({ base with errMsg := some ("failed to create file: ".toList ++ e) }, tr)
  | .ok _ =>
    match env.copyBody fetchURL with
    | .error e =>
      ({ base with errMsg := some ("failed to write file: ".toList ++ e) },
       { tr with created := tr.created ++ [fp], removed := tr.removed ++ [fp] })
    | .ok n =>
      ({ base with success := true, bytesWritten := n },
       { tr with created := tr.created ++ [fp] })

/-- downloader.go lines 146-183: Content-Disposition re-resolution (with
its second existence check) followed by the streaming tail. -/
def finishDownload (env : DlEnv) (u targetDir filename : Str) (resp : HttpResp)
    (tr : DlTrace) : Option (DownloadResult × DlTrace) :=
  let fp := joinPath targetDir filename
  if resp.contentDisposition.isEmpty then
    some (streamToFile env u fp (baseResult u fp) tr)
  else
    match parseContentDisposition resp.contentDisposition with
    | none => none
    | some cdFilename =>
      if cdFilename.isEmpty then
        some (streamToFile env u fp (baseResult u fp) tr)
      else
        let fp2 := joinPath targetDir cdFilename
        if env.fileExists fp2 then
          some ({ baseResult u fp2 with
                    skipped := true
                    errMsg := some ("file already exists".toList) }, tr)
        else
          some (streamToFile env u fp2 (baseResult u fp2) tr)

/-- downloader.go lines 113-183: the non-GitHub download path. -/
def normalDownload (env : DlEnv) (u targetDir : Str) :
    Option (DownloadResult × DlTrace) :=
  match env.parseURL u with
  | none =>
    some ({ baseResult u [] with
              filePath := []
              errMsg := some ("failed to parse URL".toList) }, DlTrace.empty)
  | some (pth, host) =>
    match getFilenameFromURL pth host with
    | none => none
    | some filename =>
      let fp := joinPath targetDir filename
      if env.fileExists fp then
        some ({ baseResult u fp with
                  skipped := true
                  errMsg := some ("file already exists".toList) }, DlTrace.empty)
      else
        match env.httpGet u with
        | .error e =>
          some ({ baseResult u fp with
                  errMsg := some ("HTTP request failed: ".toList ++ e) },
                ⟨[u], [], []⟩)
        | .ok resp =>
          if resp.statusCode ≠ 200 then
            some ({ baseResult u fp with errMsg := some (httpErrMsg resp) },
                  ⟨[u], [], []⟩)
          else
            finishDownload env u targetDir filename resp ⟨[u], [], []⟩

/-- downloader.go lines 63-69: the archive URL probed for one branch. -/
def archiveURLFor (owner repo branch : Str) : Str :=
  if branch = "HEAD".toList then
    "https://github.com/".toList ++ owner ++ "/".toList ++ repo ++
      "/archive/HEAD.zip".toList
  else
    "https://github.com/".toList ++ owner ++ "/".toList ++ repo ++
      "/archive/refs/heads/".toList ++ branch ++ ".zip".toList

/-- downloader.go lines 59-109: probe the branches in order, commit to the
first HTTP 200 response, otherwise fail with the last branch's error. -/
def githubTryBranches (env : DlEnv) (owner repo fp : Str) (base : DownloadResult) :
    List Str → Option Str → DlTrace → DownloadResult × DlTrace
  | [], lastErr, tr =>
    let msg := "failed to download GitHub repo from all branches: ".toList ++
               lastErr.getD []
    ({ base with errMsg := some msg }, tr)
  | branch :: rest, lastErr, tr =>
    let aurl := archiveURLFor owner repo branch
    let tr := { tr with requests := tr.requests ++ [aurl] }
    match env.httpGet aurl with
    | .error e => githubTryBranches env owner repo fp base rest (some e) tr
    | .ok resp =>
      if resp.statusCode = 200 then streamToFile env aurl fp base tr
      else githubTryBranches env owner repo fp base rest (some (httpErrMsg resp)) tr

def githubBranches : List Str := ["main".toList, "master".toList, "HEAD".toList]

/-- downloader.go `downloadURL`. -/
def downloadURL (env : DlEnv) (u targetDir : Str) :
    Option (DownloadResult × DlTrace) :=
  if isGitHubRepoURL u then
    let (owner, repo) := extractGitHubInfo u
    if ¬ owner.isEmpty && ¬ repo.isEmpty then
      let filename := owner ++ "-".toList ++ repo ++ ".zip".toList
      let fp := joinPath targetDir filename
      if env.fileExists fp then
        some ({ baseResult u fp with
                  skipped := true
                  errMsg := some ("file already exists".toList) }, DlTrace.empty)
      else
        some (githubTryBranches env owner repo fp (baseResult u fp)
                githubBranches none DlTrace.empty)
    else normalDownload env u targetDir
  else normalDownload env u targetDir

/-! ## Worker pool and orchestration (worker.go, main.go)

`processFile` is worker.go's per-job function; extraction and the download
of a single URL are abstracted by `WorkerEnv` (the download loop's internal
behavior is `downloadURL`, modelled above).  The concurrent pipeline is a
small-step transition system `PStep`: one transition per suspension point
of the Scanner, the Workers, the collector, and the orchestrator's shutdown
sequence in main.go lines 104-132 (`close(jobs)`; `workerWg.Wait()`;
`close(results)`; `collectorWg.Wait()`). -/

/-- worker.go `Result`. -/
structure Result where
  filePath : Str
  urlsFound : Nat
  downloadResults : List DownloadResult
deriving DecidableEq

/-- The collaborators of one worker: `extractURLsFromFile` (which performs
file I/O) and `downloadURL` (abstracted; its own model is above). -/
structure WorkerEnv where
  extract : Str → Except Str (List Str)
  download : Str → Str → DownloadResult

/-- Go `filepath.Dir` as used on a file path produced by the scanner: the
portion before the final '/' (path cleaning is irrelevant here). -/
def goDirname (p : Str) : Str :=
  let pre := dropWhileEnd (fun c => c ≠ '/') p
  if pre.isEmpty then ['.'] else dropWhileEnd (fun c => c = '/') pre

/-- worker.go `processFile`: one `Result` for every job, also when the file
cannot be read (`urlsFound = 0`, no outcomes) or contains zero URLs. -/
def processFile (env : WorkerEnv) (filePath : Str) : Result :=
  match env.extract filePath with
  | .error _ => ⟨filePath, 0, []⟩
  | .ok urls =>
    if urls.length = 0 then ⟨filePath, 0, []⟩
    else ⟨filePath, urls.length, urls.map fun u => env.download u (goDirname filePath)⟩

/-- The state of one worker goroutine. -/
inductive WStatus where
  | idle
  | busy (job : Str)
  | done
deriving DecidableEq

/-- The channel capacity of `jobs` and `results` in main.go. -/
def queueCap : Nat := 100

/-- The shared state of the pipeline. -/
structure PipeState where
  pending : List Str
  jobQueue : List Str
  jobsClosed : Bool
  workers : List WStatus
  resultQueue : List Result
  resultsClosed : Bool
  collected : List Result
  collectorDone : Bool
deriving DecidableEq

/-- One interleaving step of the pipeline.  Guards mirror the blocking
behavior of the bounded channels and the shutdown sequence of main.go:
`closeResults` fires only after every worker has signalled completion
(`workerWg.Wait()`), `collectorExit` only after the result queue is closed
and drained. -/
inductive PStep (env : WorkerEnv) : PipeState → PipeState → Prop
  | enqueue (s : PipeState) (j : Str) (rest : List Str) :
      s.pending = j :: rest → s.jobsClosed = false → s.jobQueue.length < queueCap →
      PStep env s { s with pending := rest, jobQueue := s.jobQueue ++ [j] }
  | closeJobs (s : PipeState) :
      s.pending = [] → s.jobsClosed = false →
      PStep env s { s with jobsClosed := true }
  | dequeue (s : PipeState) (i : Nat) (j : Str) (rest : List Str) :
      s.workers.get? i = some .idle → s.jobQueue = j :: rest →
      PStep env s { s with workers := s.workers.set i (.busy j), jobQueue := rest }
  | finishJob (s : PipeState) (i : Nat) (j : Str) :
      s.workers.get? i = some (.busy j) → s.resultQueue.length < queueCap →
      PStep env s { s with
                    workers := s.workers.set i .idle
                    resultQueue := s.resultQueue ++ [processFile env j] }
  | workerExit (s : PipeState) (i : Nat) :
      s.workers.get? i = some .idle → s.jobsClosed = true → s.jobQueue = [] →
      PStep env s { s with workers := s.workers.set i .done }
  | closeResults (s : PipeState) :
      s.jobsClosed = true → (∀ w ∈ s.workers, w = .done) → s.resultsClosed = false →
      PStep env s { s with resultsClosed := true }
  | collect (s : PipeState) (r : Result) (rest : List Result) :
      s.resultQueue = r :: rest →
      PStep env s { s with resultQueue := rest, collected := s.collected ++ [r] }
  | collectorExit (s : PipeState) :
      s.resultsClosed = true → s.resultQueue = [] →
      PStep env s { s with collectorDone := true }

/-- The pipeline's initial state: the scanner's full job list still
pending, `w` idle workers, both channels open and empty. -/
def initState (jobs : List Str) (w : Nat) : PipeState :=
  ⟨jobs, [], false, List.replicate w .idle, [], false, [], false⟩

/-- Interleaved executions of the pipeline. -/
def Reaches (env : WorkerEnv) : PipeState → PipeState → Prop :=
  Relation.ReflTransGen (PStep env)

/-- The jobs currently being processed by workers. -/
def busyJobs (ws : List WStatus) : List Str :=
  ws.filterMap fun w => match w with | .busy j => some j | _ => none

/-! ## Theorems -/

/-! ### C4: extracted URLs are validated; deduplication holds for three of
the four extractors but not for `.url` files -/

/-- A `.url` file whose two identical `URL=` lines are both returned. -/
def c4DupContent : Str :=
  "URL=https://host.test/a.bin\nURL=https://host.test/a.bin".toList

/-- C4 counterexample: the claim says the URL collection of every supported
file contains no duplicate strings, but `extractURLsFromURLFile` appends to
a slice without deduplication, so a `.url` file with two identical `URL=`
lines yields the same string twice. -/
theorem c4_url_file_dedup_counterexample :
    extractURLsFromURLFile c4DupContent =
      ["https://host.test/a.bin".toList, "https://host.test/a.bin".toList] ∧
    ¬ (extractURLsFromURLFile c4DupContent).Nodup := by
  exact ⟨by decide, by decide⟩

/-- C4 (amended): every URL returned by any extractor satisfies
`isValidURL` (scheme, minimum length 10, case-insensitive blacklist), and
the markdown, HTML and text extractors return duplicate-free collections;
the `.url` extractor preserves duplicates of repeated lines. -/
theorem c4_extracted_urls_valid_and_deduped :
    (∀ content u, u ∈ extractURLsFromURLFile content → isValidURL u = true)
    ∧ (∀ content, (extractURLsFromMarkdown content).Nodup ∧
        ∀ u ∈ extractURLsFromMarkdown content, isValidURL u = true)
    ∧ (∀ content, (extractURLsFromHTML content).Nodup ∧
        ∀ u ∈ extractURLsFromHTML content, isValidURL u = true)
    ∧ (∀ content, (extractURLsFromText content).Nodup ∧
        ∀ u ∈ extractURLsFromText content, isValidURL u = true) := by
  refine ⟨fun content u hu => ?_, fun content => ?_, fun content => ?_, fun content => ?_⟩
  · simp only [extractURLsFromURLFile, List.mem_filterMap] at hu
    obtain ⟨line, -, hline⟩ := hu
    simp only [urlFileLineURL] at hline
    split at hline
    · split at hline
      · rename_i hcond
        simp only [Bool.and_eq_true, decide_eq_true_eq] at hcond
        cases hline
        exact hcond.2
      · cases hline
    · split at hline
      · split at hline
        · rename_i hcond
          simp only [Bool.and_eq_true, decide_eq_true_eq] at hcond
          cases hline
          exact hcond.2
        · cases hline
      · cases hline
  · refine ⟨List.nodup_dedup _, fun u hu => ?_⟩
    simp only [extractURLsFromMarkdown, dedupKeys, List.mem_dedup] at hu
    exact List.of_mem_filter hu
  · refine ⟨List.nodup_dedup _, fun u hu => ?_⟩
    simp only [extractURLsFromHTML, dedupKeys, List.mem_dedup] at hu
    exact List.of_mem_filter hu
  · refine ⟨List.nodup_dedup _, fun u hu => ?_⟩
    simp only [extractURLsFromText, dedupKeys, List.mem_dedup] at hu
    exact List.of_mem_filter hu

/-- C4 witness: the amended theorem applied to concrete file contents. -/
theorem c4_extracted_urls_valid_and_deduped_witness :
    isValidURL ("https://host.test/a.bin".toList) = true ∧
    (extractURLsFromMarkdown ("see [x](https://host.test/a.zip)".toList)).Nodup := by
  refine ⟨c4_extracted_urls_valid_and_deduped.1 c4DupContent _ (by decide), ?_⟩
  exact (c4_extracted_urls_valid_and_deduped.2.1 _).1

/-! ### C5: status handling is `!= 200`, not "not 2xx" -/

theorem listHasPre_self_append (p t : Str) : listHasPre p (p ++ t) = true := by
  induction p with
  | nil => simp [listHasPre]
  | cons x xs ih => simp [listHasPre, ih]

theorem containsSub_mid (a b c : Str) : containsSub (a ++ (b ++ c)) b = true := by
  induction a with
  | nil =>
    cases b with
    | nil =>
      cases c with
      | nil => simp [containsSub]
      | cons y ys => simp [containsSub, listHasPre]
    | cons y ys =>
      simp only [List.nil_append, List.cons_append, containsSub, Bool.or_eq_true]
      exact Or.inl (listHasPre_self_append (y :: ys) c)
  | cons x xs ih =>
    simp [containsSub, ih]

/-- An environment whose server answers 204 No Content (a 2xx status). -/
def c5Env : DlEnv :=
  ⟨fun _ => some ("/a.bin".toList, "host.test".toList), fun _ => false,
   fun _ => .ok ⟨204, "204 No Content".toList, []⟩, fun _ => .ok (), fun _ => .ok 5⟩

/-- C5 counterexample: the claim says a Failed outcome is reported exactly
when the status is not 2xx, but the code tests `resp.StatusCode !=
http.StatusOK`, so a 204 response — a 2xx status — is reported Failed
instead of proceeding to streaming. -/
theorem c5_2xx_counterexample :
    (200 ≤ 204 ∧ 204 < 300) ∧
    (downloadURL c5Env ("https://host.test/a.bin".toList) ("/dl".toList)).map
        (fun p => (p.1.success, p.1.skipped, p.1.errMsg.isSome, p.2.created)) =
      some (false, false, true, []) := by
  exact ⟨by decide, by decide⟩

/-- C5 (amended): on the non-GitHub path, once the filename is resolved,
the file does not already exist and the GET returns a response, the
Downloader reports a status-based Failed outcome exactly when the status is
not 200 (so 2xx statuses other than 200 also fail); in the Failed case the
error detail is `HTTP <code>: <status text>` — which contains the numeric
status, e.g. "404" for a 404 — and the trace shows no file created or
removed; a 200 response proceeds to filename re-resolution and body
streaming (`finishDownload`). -/
theorem c5_non_200_is_failed (env : DlEnv) (u targetDir pth host fname : Str)
    (resp : HttpResp)
    (hgh : isGitHubRepoURL u = false)
    (hparse : env.parseURL u = some (pth, host))
    (hname : getFilenameFromURL pth host = some fname)
    (hex : env.fileExists (joinPath targetDir fname) = false)
    (hget : env.httpGet u = .ok resp) :
    (resp.statusCode ≠ 200 →
      downloadURL env u targetDir =
        some ({ baseResult u (joinPath targetDir fname) with
                errMsg := some (httpErrMsg resp) }, ⟨[u], [], []⟩)) ∧
    containsSub (httpErrMsg resp) ((Nat.repr resp.statusCode).toList) = true ∧
    (resp.statusCode = 200 →
      downloadURL env u targetDir =
        finishDownload env u targetDir fname resp ⟨[u], [], []⟩) := by
  refine ⟨fun hne => ?_, ?_, fun heq => ?_⟩
  · simp only [downloadURL, hgh, if_false, Bool.false_eq_true, normalDownload,
      hparse, hname, hex, hget]
    rw [if_pos hne]
  · simp only [httpErrMsg, List.append_assoc]
    exact containsSub_mid _ _ _
  · simp only [downloadURL, hgh, if_false, Bool.false_eq_true, normalDownload,
      hparse, hname, hex, hget, heq]
    simp

/-- An environment whose server answers 404 Not Found. -/
def c5wEnv : DlEnv :=
  ⟨fun _ => some ("/a.bin".toList, "host.test".toList), fun _ => false,
   fun _ => .ok ⟨404, "404 Not Found".toList, []⟩, fun _ => .ok (), fun _ => .ok 5⟩

/-- C5 witness: a concrete 404 response yields Failed with "404" in the
error detail and no file on disk. -/
theorem c5_non_200_is_failed_witness :
    downloadURL c5wEnv ("https://host.test/a.bin".toList) ("/dl".toList) =
      some ({ baseResult ("https://host.test/a.bin".toList)
                (joinPath ("/dl".toList) ("a.bin".toList)) with
              errMsg := some (httpErrMsg ⟨404, "404 Not Found".toList, []⟩) },
            ⟨["https://host.test/a.bin".toList], [], []⟩) ∧
    containsSub (httpErrMsg ⟨404, "404 Not Found".toList, []⟩) ("404".toList) = true := by
  refine ⟨?_, ?_⟩
  · exact (c5_non_200_is_failed c5wEnv _ _ _ _ _ _ (by decide) rfl (by decide) rfl
      rfl).1 (by decide)
  · exact (c5_non_200_is_failed c5wEnv ("https://host.test/a.bin".toList)
      ("/dl".toList) _ _ ("a.bin".toList) _ (by decide) rfl (by decide) rfl rfl).2.1

/-! ### C6: existence checks before the request and after Content-Disposition
re-resolution -/

/-- C6: if the file at `targetDir/filename` (resolved from the URL) already
exists, the Downloader reports Skipped with an empty effect trace (no HTTP
request, no file created or removed, the existing file untouched); and when
a Content-Disposition filename re-resolves the destination after the
response arrives, the existence check is repeated on the new path, so a
Skipped outcome is still possible then — with the request already issued
but again no file created or removed. -/
theorem c6_exists_skips (env : DlEnv) (u targetDir pth host fname : Str)
    (hgh : isGitHubRepoURL u = false)
    (hparse : env.parseURL u = some (pth, host))
    (hname : getFilenameFromURL pth host = some fname) :
    (env.fileExists (joinPath targetDir fname) = true →
      downloadURL env u targetDir =
        some ({ baseResult u (joinPath targetDir fname) with
                skipped := true
                errMsg := some ("file already exists".toList) }, DlTrace.empty)) ∧
    (∀ resp cd, env.fileExists (joinPath targetDir fname) = false →
      env.httpGet u = .ok resp → resp.statusCode = 200 →
      resp.contentDisposition.isEmpty = false →
      parseContentDisposition resp.contentDisposition = some cd →
      cd.isEmpty = false →
      env.fileExists (joinPath targetDir cd) = true →
      downloadURL env u targetDir =
        some ({ baseResult u (joinPath targetDir cd) with
                skipped := true
                errMsg := some ("file already exists".toList) }, ⟨[u], [], []⟩)) := by
  refine ⟨fun hex => ?_, fun resp cd hex hget h200 hcdne hcd hcdval hex2 => ?_⟩
  · simp only [downloadURL, hgh, if_false, Bool.false_eq_true, normalDownload,
      hparse, hname, hex, if_true]
  · simp only [downloadURL, hgh, if_false, Bool.false_eq_true, normalDownload,
      hparse, hname, hex, hget, h200]
    simp only [if_neg (by simp : ¬ (200 ≠ 200))]
    simp only [finishDownload, hcdne, Bool.false_eq_true, if_false, hcd,
      hcdval, hex2, if_true]

/-- An environment where the URL-resolved destination already exists. -/
def c6wEnv : DlEnv :=
  ⟨fun _ => some ("/a.bin".toList, "host.test".toList),
   fun p => p = "/dl/a.bin".toList,
   fun _ => .ok ⟨200, "200 OK".toList, []⟩, fun _ => .ok (), fun _ => .ok 5⟩

/-- An environment where only the Content-Disposition-resolved destination
already exists. -/
def c6wEnv2 : DlEnv :=
  ⟨fun _ => some ("/a.bin".toList, "host.test".toList),
   fun p => p = "/dl/cd.bin".toList,
   fun _ => .ok ⟨200, "200 OK".toList, "attachment; filename=\"cd.bin\"".toList⟩,
   fun _ => .ok (), fun _ => .ok 5⟩

/-- C6 witness: both skip situations at concrete inputs. -/
theorem c6_exists_skips_witness :
    downloadURL c6wEnv ("https://host.test/a.bin".toList) ("/dl".toList) =
      some ({ baseResult ("https://host.test/a.bin".toList) ("/dl/a.bin".toList) with
              skipped := true
              errMsg := some ("file already exists".toList) }, DlTrace.empty) ∧
    downloadURL c6wEnv2 ("https://host.test/a.bin".toList) ("/dl".toList) =
      some ({ baseResult ("https://host.test/a.bin".toList) ("/dl/cd.bin".toList) with
              skipped := true
              errMsg := some ("file already exists".toList) },
            ⟨["https://host.test/a.bin".toList], [], []⟩) := by
  constructor
  · exact (c6_exists_skips c6wEnv ("https://host.test/a.bin".toList) ("/dl".toList)
      ("/a.bin".toList) ("host.test".toList) ("a.bin".toList)
      (by decide) rfl (by decide)).1 (by decide)
  · exact (c6_exists_skips c6wEnv2 ("https://host.test/a.bin".toList) ("/dl".toList)
      ("/a.bin".toList) ("host.test".toList) ("a.bin".toList)
      (by decide) rfl (by decide)).2 _ ("cd.bin".toList) (by decide) rfl rfl
      (by decide) (by decide) (by decide) (by decide)

/-! ### C8: mid-stream write errors delete the partial file; success reports
the byte count -/

/-- C8: once the normal download path reaches streaming (resolved filename,
no pre-existing file, a 200 response with no Content-Disposition header,
file created), a copy error yields a Failed outcome whose detail wraps the
underlying cause and whose trace shows the partial file created and then
removed; a successful copy yields Success with the bytes-written count and
the file is not removed.  In both cases the call returns a result value —
the outcome is never raised past the caller. -/
theorem c8_stream_outcome (env : DlEnv) (u targetDir pth host fname : Str)
    (resp : HttpResp)
    (hgh : isGitHubRepoURL u = false)
    (hparse : env.parseURL u = some (pth, host))
    (hname : getFilenameFromURL pth host = some fname)
    (hex : env.fileExists (joinPath targetDir fname) = false)
    (hget : env.httpGet u = .ok resp)
    (h200 : resp.statusCode = 200)
    (hcd : resp.contentDisposition = [])
    (hcreate : env.createOk (joinPath targetDir fname) = .ok ()) :
    (∀ e, env.copyBody u = .error e →
      downloadURL env u targetDir =
        some ({ baseResult u (joinPath targetDir fname) with
                errMsg := some ("failed to write file: ".toList ++ e) },
              ⟨[u], [joinPath targetDir fname], [joinPath targetDir fname]⟩)) ∧
    (∀ n, env.copyBody u = .ok n →
      downloadURL env u targetDir =
        some ({ baseResult u (joinPath targetDir fname) with
                success := true
                bytesWritten := n },
              ⟨[u], [joinPath targetDir fname], []⟩)) := by
  have hbase : downloadURL env u targetDir =
      some (streamToFile env u (joinPath targetDir fname)
        (baseResult u (joinPath targetDir fname)) ⟨[u], [], []⟩) := by
    simp only [downloadURL, hgh, if_false, Bool.false_eq_true, normalDownload,
      hparse, hname, hex, hget, h200]
    simp only [if_neg (by simp : ¬ (200 ≠ 200))]
    simp only [finishDownload, hcd, List.isEmpty_nil, if_true]
  refine ⟨fun e hcopy => ?_, fun n hcopy => ?_⟩
  · rw [hbase]
    simp only [streamToFile, hcreate, hcopy]
    rfl
  · rw [hbase]
    simp only [streamToFile, hcreate, hcopy]
    rfl

/-- An environment whose `io.Copy` fails mid-stream. -/
def c8wEnv : DlEnv :=
  ⟨fun _ => some ("/a.bin".toList, "host.test".toList), fun _ => false,
   fun _ => .ok ⟨200, "200 OK".toList, []⟩, fun _ => .ok (),
   fun _ => .error ("connection reset".toList)⟩

/-- An environment whose `io.Copy` succeeds with 7 bytes. -/
def c8wEnv2 : DlEnv :=
  ⟨fun _ => some ("/a.bin".toList, "host.test".toList), fun _ => false,
   fun _ => .ok ⟨200, "200 OK".toList, []⟩, fun _ => .ok (), fun _ => .ok 7⟩

/-- C8 witness: both streaming outcomes at concrete inputs. -/
theorem c8_stream_outcome_witness :
    downloadURL c8wEnv ("https://host.test/a.bin".toList) ("/dl".toList) =
      some ({ baseResult ("https://host.test/a.bin".toList) ("/dl/a.bin".toList) with
              errMsg := some ("failed to write file: connection reset".toList) },
            ⟨["https://host.test/a.bin".toList], ["/dl/a.bin".toList],
             ["/dl/a.bin".toList]⟩) ∧
    downloadURL c8wEnv2 ("https://host.test/a.bin".toList) ("/dl".toList) =
      some ({ baseResult ("https://host.test/a.bin".toList) ("/dl/a.bin".toList) with
              success := true
              bytesWritten := 7 },
            ⟨["https://host.test/a.bin".toList], ["/dl/a.bin".toList], []⟩) := by
  constructor
  · have := (c8_stream_outcome c8wEnv ("https://host.test/a.bin".toList)
      ("/dl".toList) ("/a.bin".toList) ("host.test".toList) ("a.bin".toList)
      ⟨200, "200 OK".toList, []⟩ (by decide) rfl
      (by decide) rfl rfl rfl rfl rfl).1 ("connection reset".toList) rfl
    simpa using this
  · have := (c8_stream_outcome c8wEnv2 ("https://host.test/a.bin".toList)
      ("/dl".toList) ("/a.bin".toList) ("host.test".toList) ("a.bin".toList)
      ⟨200, "200 OK".toList, []⟩ (by decide) rfl
      (by decide) rfl rfl rfl rfl rfl).2 7 rfl
    simpa using this

/-! ### C7: initial filename resolution from the URL -/

theorem dropWhile_all_append (p : Char → Bool) (l x : Str) (h : ∀ c ∈ l, p c = true) :
    (l ++ x).dropWhile p = x.dropWhile p := by
  rw [List.dropWhile_append]
  simp [List.dropWhile_eq_nil_iff.mpr h]

theorem takeWhile_all_append (p : Char → Bool) (l x : Str) (h : ∀ c ∈ l, p c = true) :
    (l ++ x).takeWhile p = l ++ x.takeWhile p := by
  rw [List.takeWhile_append]
  simp [List.takeWhile_eq_self_iff.mpr h]

/-- `path.Base` returns the last non-empty, slash-free segment of the path:
for `p = a ++ s ++ b` with `s` non-empty and slash-free, `b` all slashes
and `a` empty or ending in a slash, the base is `s`. -/
theorem goPathBase_decomp (a s b : Str) (hs : s ≠ []) (hslash : '/' ∉ s)
    (hb : ∀ c ∈ b, c = '/') (ha : a = [] ∨ a.getLast? = some '/') :
    goPathBase (a ++ s ++ b) = s := by
  have hsrev : ∀ c ∈ s.reverse, decide (c ≠ '/') = true := by
    intro c hc
    simp only [List.mem_reverse] at hc
    simp only [decide_eq_true_eq]
    exact fun h => hslash (h ▸ hc)
  obtain ⟨c0, srest, hsr⟩ : ∃ c0 srest, s.reverse = c0 :: srest := by
    cases h : s.reverse with
    | nil => exact absurd (by simpa using congrArg List.reverse h) hs
    | cons x xs => exact ⟨x, xs, rfl⟩
  have hc0 : decide (c0 = '/') = false := by
    have := hsrev c0 (hsr ▸ List.mem_cons_self _ _)
    simpa using this
  have h1 : dropWhileEnd (fun c => c = '/') (a ++ s ++ b) = a ++ s := by
    unfold dropWhileEnd
    rw [List.reverse_append, dropWhile_all_append _ _ _
      (by intro c hc; simp only [List.mem_reverse] at hc; simp [hb c hc])]
    rw [List.reverse_append, hsr, List.cons_append, List.dropWhile_cons, hc0]
    simp only [Bool.false_eq_true, if_false]
    rw [← List.cons_append, ← hsr, ← List.reverse_append, List.reverse_reverse]
  have hne : (a ++ s ++ b).isEmpty = false := by
    cases a <;> cases s <;> simp_all
  have hne1 : (a ++ s).isEmpty = false := by
    cases a <;> cases s <;> simp_all
  unfold goPathBase
  rw [hne, h1]
  simp only [Bool.false_eq_true, if_false, hne1]
  rw [List.reverse_append, hsr, List.cons_append, List.takeWhile_cons]
  have hc0' : decide (c0 ≠ '/') = true := by simpa using hc0
  rw [hc0']
  simp only [if_true]
  rw [takeWhile_all_append _ _ _ (fun x hx => hsrev x (hsr ▸ List.mem_cons_of_mem _ hx))]
  rcases ha with ha | ha
  · subst ha
    simp [← hsr]
  · obtain ⟨arest, har⟩ : ∃ arest, a.reverse = '/' :: arest := by
      cases h : a.reverse with
      | nil =>
        have ha0 : a = [] := by simpa using congrArg List.reverse h
        rw [ha0] at ha
        simp at ha
      | cons x xs =>
        have hx : a.getLast? = some x := by rw [← List.head?_reverse, h]; rfl
        rw [ha] at hx
        injection hx with hx
        exact ⟨xs, by rw [hx]⟩
    rw [har, List.takeWhile_cons]
    simp [← hsr]

/-- On an empty or all-slash path, `path.Base` yields `"."` or `"/"`. -/
theorem goPathBase_all_slashes (p : Str) (hp : ∀ c ∈ p, c = '/') :
    goPathBase p = ['.'] ∨ goPathBase p = ['/'] := by
  unfold goPathBase
  cases hpe : p.isEmpty with
  | true => simp
  | false =>
    have hd : dropWhileEnd (fun c => c = '/') p = [] := by
      unfold dropWhileEnd
      have : p.reverse.dropWhile (fun c => decide (c = '/')) = [] := by
        apply List.dropWhile_eq_nil_iff.mpr
        intro c hc
        simp [hp c (List.mem_reverse.mp hc)]
      simp [this]
    simp [hd]

/-- C7: the initial destination filename is the last non-empty path segment
of the URL; when the path has no usable segment — empty or all slashes
(base `/`), or a final segment that is literally `.` — the name
`download_<host>` is synthesized and sanitized; in either case `.bin` is
appended when the resulting name contains no dot (the code's notion of
"has no extension"). -/
theorem c7_filename_resolution (pth host : Str) :
    (∀ a s b, pth = a ++ s ++ b → s ≠ [] → '/' ∉ s →
      (∀ c ∈ b, c = '/') → (a = [] ∨ a.getLast? = some '/') →
      (s ≠ ['.'] →
        getFilenameFromURL pth host =
          some (if s.contains '.' then s else s ++ ".bin".toList)) ∧
      (s = ['.'] → ∀ d, sanitizeFilename ("download_".toList ++ host) = some d →
        getFilenameFromURL pth host =
          some (if d.contains '.' then d else d ++ ".bin".toList))) ∧
    ((∀ c ∈ pth, c = '/') →
      ∀ d, sanitizeFilename ("download_".toList ++ host) = some d →
      getFilenameFromURL pth host =
        some (if d.contains '.' then d else d ++ ".bin".toList)) := by
  constructor
  · intro a s b hdec hs hslash hb ha
    have hbase : goPathBase pth = s := hdec ▸ goPathBase_decomp a s b hs hslash hb ha
    constructor
    · intro hsdot
      have hemp : s.isEmpty = false := by cases s with
        | nil => exact absurd rfl hs
        | cons x xs => rfl
      have hns : s ≠ ['/'] := fun h => hslash (h ▸ List.mem_cons_self _ _)
      simp only [getFilenameFromURL, hbase, hemp, Bool.false_eq_true, false_or,
        decide_eq_true_eq, hns, hsdot, if_false, Option.map_some]
      simp [hns, hsdot]
    · intro hsdot d hd
      simp only [getFilenameFromURL, hbase, hsdot]
      simp only [Option.map_eq_some']
      exact ⟨d, by simpa using hd, rfl⟩
  · intro hp d hd
    rcases goPathBase_all_slashes pth hp with hb | hb <;>
      simp only [getFilenameFromURL, hb] <;> simp only [Option.map_eq_some'] <;>
      exact ⟨d, by simpa using hd, rfl⟩

/-- C7 witness: the theorem applied to a concrete path with a usable
segment and to a concrete all-slash path. -/
theorem c7_filename_resolution_witness :
    getFilenameFromURL ("/x/file1.zip".toList) ("h".toList) =
      some ("file1.zip".toList) ∧
    getFilenameFromURL ("/".toList) ("host".toList) =
      some ("download_host.bin".toList) := by
  constructor
  · have := ((c7_filename_resolution ("/x/file1.zip".toList) ("h".toList)).1
      ("/x/".toList) ("file1.zip".toList) [] (by decide) (by decide) (by decide)
      (by decide) (by decide)).1 (by decide)
    simpa using this
  · have := (c7_filename_resolution ("/".toList) ("host".toList)).2 (by decide)
      ("download_host".toList) (by decide)
    simpa using this

/-! ### C9: `sanitizeFilename` safety -/

theorem head?_dropWhile_not (p : Char → Bool) (l : Str) (c : Char)
    (h : (l.dropWhile p).head? = some c) : p c = false := by
  induction l with
  | nil => simp at h
  | cons x xs ih =>
    rw [List.dropWhile_cons] at h
    by_cases hx : p x = true
    · rw [if_pos hx] at h; exact ih h
    · rw [if_neg hx] at h
      simp only [List.head?_cons, Option.some.injEq] at h
      subst h
      exact Bool.eq_false_iff.mpr hx

theorem mem_dropWhileEnd (p : Char → Bool) (l : Str) (c : Char)
    (h : c ∈ dropWhileEnd p l) : c ∈ l := by
  unfold dropWhileEnd at h
  rw [List.mem_reverse] at h
  exact List.mem_reverse.mp ((List.dropWhile_sublist p).subset h)

theorem mem_goTrimWhile (p : Char → Bool) (l : Str) (c : Char)
    (h : c ∈ goTrimWhile p l) : c ∈ l :=
  (List.dropWhile_sublist p).subset (mem_dropWhileEnd p _ c h)

theorem head?_goTrimWhile (p : Char → Bool) (l : Str) (c : Char)
    (h : (goTrimWhile p l).head? = some c) : p c = false := by
  unfold goTrimWhile dropWhileEnd at h
  set y := l.dropWhile p with hy
  have hdecomp : y = (y.reverse.dropWhile p).reverse ++ (y.reverse.takeWhile p).reverse := by
    have := List.takeWhile_append_dropWhile p y.reverse
    calc y = y.reverse.reverse := (List.reverse_reverse y).symm
    _ = (List.takeWhile p y.reverse ++ List.dropWhile p y.reverse).reverse := by rw [this]
    _ = _ := by rw [List.reverse_append]
  have hhead : y.head? = some c := by
    rw [hdecomp, List.head?_append, h]
    rfl
  exact head?_dropWhile_not p l c (hy ▸ hhead)

theorem getLast?_goTrimWhile (p : Char → Bool) (l : Str) (c : Char)
    (h : (goTrimWhile p l).getLast? = some c) : p c = false := by
  unfold goTrimWhile dropWhileEnd at h
  rw [← List.head?_reverse, List.reverse_reverse] at h
  exact head?_dropWhile_not p _ c h

theorem mem_goExt (t : Str) (c : Char) (h : c ∈ goExt t) : c = '.' ∨ c ∈ t := by
  simp only [goExt] at h
  split at h
  · cases h
  · rcases List.mem_cons.mp h with h | h
    · exact Or.inl h
    · refine Or.inr ?_
      rw [List.mem_reverse] at h
      have h1 := (List.takeWhile_sublist _).subset h
      have h2 := (List.takeWhile_sublist (fun c => decide (c ≠ '/'))).subset h1
      exact List.mem_reverse.mp h2

/-- The panic input: a name of 252 characters whose extension (the suffix
from the final dot) is 251 characters long. -/
def c9PanicInput : Str := 'x' :: '.' :: List.replicate 250 'b'

set_option maxRecDepth 20000 in
/-- C9 counterexample: the claim says `sanitizeFilename` never panics and
removes leading/trailing whitespace and dots.  But for a long name whose
extension alone exceeds 200 characters, `filename[:200-len(ext)]` slices
with a negative bound — a Go runtime panic (modelled as `none`); and
because dots are trimmed only after whitespace, `". a."` sanitizes to
`" a"`, which still has leading whitespace. -/
theorem c9_sanitize_counterexample :
    sanitizeFilename c9PanicInput = none ∧
    sanitizeFilename (". a.".toList) = some (" a".toList) := by
  exact ⟨by decide, by decide⟩

/-- C9 (amended): `sanitizeFilename` replaces each of `< > : " / \ | ? *`
with `_`, trims whitespace and then dots (whitespace exposed by removing a
dot can remain), and when it returns a value that value has length at most
200, contains none of the nine replaced characters, has no leading or
trailing dot in the untruncated case, and keeps the extension when
truncation occurs; it panics (`none`) exactly when the trimmed name is
longer than 200 characters and its extension alone is too. -/
theorem c9_sanitize_behavior (s : Str) :
    (sanitizeFilename s = none ↔
      200 < (goTrimCutset ['.'] (goTrimSpace (s.map fun c =>
        if invalidFileChars.contains c then '_' else c))).length ∧
      200 < (goExt (goTrimCutset ['.'] (goTrimSpace (s.map fun c =>
        if invalidFileChars.contains c then '_' else c)))).length) ∧
    (∀ r, sanitizeFilename s = some r →
      (∀ c ∈ r, invalidFileChars.contains c = false) ∧
      r.length ≤ 200 ∧
      ((goTrimCutset ['.'] (goTrimSpace (s.map fun c =>
          if invalidFileChars.contains c then '_' else c))).length ≤ 200 →
        r = goTrimCutset ['.'] (goTrimSpace (s.map fun c =>
          if invalidFileChars.contains c then '_' else c)) ∧
        r.head? ≠ some '.' ∧ r.getLast? ≠ some '.') ∧
      (200 < (goTrimCutset ['.'] (goTrimSpace (s.map fun c =>
          if invalidFileChars.contains c then '_' else c))).length →
        r = (goTrimCutset ['.'] (goTrimSpace (s.map fun c =>
              if invalidFileChars.contains c then '_' else c))).take
            (200 - (goExt (goTrimCutset ['.'] (goTrimSpace (s.map fun c =>
              if invalidFileChars.contains c then '_' else c)))).length) ++
          goExt (goTrimCutset ['.'] (goTrimSpace (s.map fun c =>
            if invalidFileChars.contains c then '_' else c))))) := by
  set s1 := s.map (fun c => if invalidFileChars.contains c then '_' else c) with hs1
  set t := goTrimCutset ['.'] (goTrimSpace s1) with ht
  have hmem_t : ∀ c ∈ t, invalidFileChars.contains c = false := by
    intro c hc
    have h2 : c ∈ goTrimSpace s1 := mem_goTrimWhile _ _ c hc
    have h3 : c ∈ s1 := mem_goTrimWhile _ _ c h2
    rw [hs1] at h3
    rcases List.mem_map.mp h3 with ⟨x, -, hx⟩
    by_cases hinv : invalidFileChars.contains x = true
    · rw [hinv] at hx
      simp only [if_true] at hx
      rw [← hx]
      decide
    · rw [Bool.not_eq_true] at hinv
      rw [hinv] at hx
      simp only [Bool.false_eq_true, if_false] at hx
      rw [← hx]
      exact hinv
  have hsan : sanitizeFilename s =
      (if t.length > 200 then
        if 200 < (goExt t).length then none
        else some (t.take (200 - (goExt t).length) ++ goExt t)
      else some t) := by
    rw [sanitizeFilename, ← hs1, ← ht]
  constructor
  · rw [hsan]
    constructor
    · intro h
      split at h
      · split at h
        · exact ⟨by omega, by assumption⟩
        · cases h
      · cases h
    · rintro ⟨h1, h2⟩
      rw [if_pos (by omega), if_pos h2]
  · intro r hr
    rw [hsan] at hr
    by_cases hlen : t.length > 200
    · rw [if_pos hlen] at hr
      by_cases hext : 200 < (goExt t).length
      · rw [if_pos hext] at hr; cases hr
      · rw [if_neg hext] at hr
        injection hr with hr
        have hextlen : (goExt t).length ≤ 200 := by omega
        refine ⟨?_, ?_, ?_, fun _ => hr.symm⟩
        · intro c hc
          rw [← hr] at hc
          rcases List.mem_append.mp hc with hc | hc
          · exact hmem_t c ((List.take_sublist _ _).subset hc)
          · rcases mem_goExt t c hc with hc | hc
            · rw [hc]; decide
            · exact hmem_t c hc
        · rw [← hr, List.length_append, List.length_take]
          omega
        · omega
    · rw [if_neg hlen] at hr
      injection hr with hr
      refine ⟨fun c hc => hmem_t c (hr ▸ hc), by rw [← hr]; omega, fun _ => ⟨hr.symm, ?_, ?_⟩,
        fun h => absurd h hlen⟩
      · intro hh
        rw [← hr] at hh
        have hcontra := head?_goTrimWhile (fun c => List.contains ['.'] c) _ _ hh
        exact absurd hcontra (by decide)
      · intro hh
        rw [← hr] at hh
        have hcontra := getLast?_goTrimWhile (fun c => List.contains ['.'] c) _ _ hh
        exact absurd hcontra (by decide)

/-- C9 witness: the amended theorem applied to a concrete name, whose
invalid characters are replaced, with surrounding space and dots trimmed. -/
theorem c9_sanitize_behavior_witness :
    sanitizeFilename (" x<y>.txt. ".toList) = some ("x_y_.txt".toList) ∧
    (∀ c ∈ ("x_y_.txt".toList), invalidFileChars.contains c = false) ∧
    ("x_y_.txt".toList).length ≤ 200 := by
  have h := (c9_sanitize_behavior (" x<y>.txt. ".toList)).2
    ("x_y_.txt".toList) (by decide)
  exact ⟨by decide, h.1, h.2.1⟩


/-! ### C10: GitHub repository URLs are probed as branch archives -/

/-- The Failed message when every branch probe failed (`%w` wraps the last
branch's error). -/
def allBranchesFailedMsg (e : Str) : Str :=
  "failed to download GitHub repo from all branches: ".toList ++ e

/-- One failed probe of a branch archive URL: a transport error, or a
non-200 response whose error text is `HTTP <code>: <status text>`. -/
def branchFailure (env : DlEnv) (aurl e : Str) : Prop :=
  env.httpGet aurl = .error e ∨
  ∃ resp, env.httpGet aurl = .ok resp ∧ resp.statusCode ≠ 200 ∧ e = httpErrMsg resp

theorem gtb_nil (env : DlEnv) (owner repo fp : Str) (base : DownloadResult)
    (lastErr : Option Str) (tr : DlTrace) :
    githubTryBranches env owner repo fp base [] lastErr tr =
      ({ base with errMsg := some (allBranchesFailedMsg (lastErr.getD [])) }, tr) := by
  simp [githubTryBranches, allBranchesFailedMsg]

theorem gtb_fail_step (env : DlEnv) (owner repo fp : Str) (base : DownloadResult)
    (branch : Str) (rest : List Str) (lastErr : Option Str) (tr : DlTrace) (e : Str)
    (hbf : branchFailure env (archiveURLFor owner repo branch) e) :
    githubTryBranches env owner repo fp base (branch :: rest) lastErr tr =
      githubTryBranches env owner repo fp base rest (some e)
        { tr with requests := tr.requests ++ [archiveURLFor owner repo branch] } := by
  rcases hbf with herr | ⟨resp, hok, hcode, he⟩
  · simp only [githubTryBranches, herr]
  · simp only [githubTryBranches, hok, hcode, he]
    simp

theorem gtb_success_step (env : DlEnv) (owner repo fp : Str) (base : DownloadResult)
    (branch : Str) (rest : List Str) (lastErr : Option Str) (tr : DlTrace)
    (resp : HttpResp)
    (hok : env.httpGet (archiveURLFor owner repo branch) = .ok resp)
    (h200 : resp.statusCode = 200) :
    githubTryBranches env owner repo fp base (branch :: rest) lastErr tr =
      streamToFile env (archiveURLFor owner repo branch) fp base
        { tr with requests := tr.requests ++ [archiveURLFor owner repo branch] } := by
  simp only [githubTryBranches, hok, h200, if_pos]

/-- C10: for a URL recognized as a GitHub repository (pattern
`https?://github.com/<owner>/<repo>`, not an archive/releases/raw URL), the
Downloader targets `<owner>-<repo>.zip` in the target directory regardless
of the URL's own path; if that file exists it reports Skipped with no
request issued; otherwise it probes the `main`, `master` and `HEAD` archive
URLs in that order, commits to the first HTTP 200 response (streaming it
into the destination), and when all three probes fail it reports Failed
wrapping the last branch's error. -/
theorem c10_github_repo_download (env : DlEnv)
    (u targetDir owner repo fp a1 a2 a3 : Str)
    (hgh : isGitHubRepoURL u = true)
    (hinfo : extractGitHubInfo u = (owner, repo))
    (ho : owner.isEmpty = false) (hrep : repo.isEmpty = false)
    (hfp : fp = joinPath targetDir (owner ++ "-".toList ++ repo ++ ".zip".toList))
    (ha1 : a1 = archiveURLFor owner repo ("main".toList))
    (ha2 : a2 = archiveURLFor owner repo ("master".toList))
    (ha3 : a3 = archiveURLFor owner repo ("HEAD".toList)) :
    (env.fileExists fp = true →
      downloadURL env u targetDir =
        some ({ baseResult u fp with
                skipped := true
                errMsg := some ("file already exists".toList) }, DlTrace.empty)) ∧
    (env.fileExists fp = false →
      (∀ resp, env.httpGet a1 = .ok resp → resp.statusCode = 200 →
        downloadURL env u targetDir =
          some (streamToFile env a1 fp (baseResult u fp) ⟨[a1], [], []⟩)) ∧
      (∀ e1 resp, branchFailure env a1 e1 →
        env.httpGet a2 = .ok resp → resp.statusCode = 200 →
        downloadURL env u targetDir =
          some (streamToFile env a2 fp (baseResult u fp) ⟨[a1, a2], [], []⟩)) ∧
      (∀ e1 e2 resp, branchFailure env a1 e1 → branchFailure env a2 e2 →
        env.httpGet a3 = .ok resp → resp.statusCode = 200 →
        downloadURL env u targetDir =
          some (streamToFile env a3 fp (baseResult u fp) ⟨[a1, a2, a3], [], []⟩)) ∧
      (∀ e1 e2 e3, branchFailure env a1 e1 → branchFailure env a2 e2 →
        branchFailure env a3 e3 →
        downloadURL env u targetDir =
          some ({ baseResult u fp with errMsg := some (allBranchesFailedMsg e3) },
                ⟨[a1, a2, a3], [], []⟩))) := by
  subst hfp ha1 ha2 ha3
  constructor
  · intro hex
    simp only [downloadURL, hgh, if_true, hinfo, ho, hrep, hex]
    simp
  · intro hex
    have hstart : downloadURL env u targetDir =
        some (githubTryBranches env owner repo
          (joinPath targetDir (owner ++ "-".toList ++ repo ++ ".zip".toList))
          (baseResult u (joinPath targetDir (owner ++ "-".toList ++ repo ++ ".zip".toList)))
          githubBranches none DlTrace.empty) := by
      simp only [downloadURL, hgh, if_true, hinfo, ho, hrep, hex]
      simp
    refine ⟨fun resp hok h200 => ?_, fun e1 resp hb1 hok h200 => ?_,
      fun e1 e2 resp hb1 hb2 hok h200 => ?_, fun e1 e2 e3 hb1 hb2 hb3 => ?_⟩
    · rw [hstart, githubBranches]
      rw [gtb_success_step _ _ _ _ _ _ _ _ _ resp hok h200]
      rfl
    · rw [hstart, githubBranches]
      rw [gtb_fail_step _ _ _ _ _ _ _ _ _ e1 hb1]
      rw [gtb_success_step _ _ _ _ _ _ _ _ _ resp hok h200]
      rfl
    · rw [hstart, githubBranches]
      rw [gtb_fail_step _ _ _ _ _ _ _ _ _ e1 hb1]
      rw [gtb_fail_step _ _ _ _ _ _ _ _ _ e2 hb2]
      rw [gtb_success_step _ _ _ _ _ _ _ _ _ resp hok h200]
      rfl
    · rw [hstart, githubBranches]
      rw [gtb_fail_step _ _ _ _ _ _ _ _ _ e1 hb1]
      rw [gtb_fail_step _ _ _ _ _ _ _ _ _ e2 hb2]
      rw [gtb_fail_step _ _ _ _ _ _ _ _ _ e3 hb3]
      rw [gtb_nil]
      rfl

/-- An environment whose server answers 404 for every archive probe. -/
def c10wEnv : DlEnv :=
  ⟨fun _ => none, fun _ => false,
   fun _ => .ok ⟨404, "404 Not Found".toList, []⟩, fun _ => .ok (), fun _ => .ok 3⟩

/-- C10 witness: for `https://github.com/foo/bar` with every probe
answering 404, the Downloader requests the three branch archives in order
and fails with the last branch's error, targeting `foo-bar.zip`. -/
theorem c10_github_repo_download_witness :
    downloadURL c10wEnv ("https://github.com/foo/bar".toList) ("/dl".toList) =
      some ({ baseResult ("https://github.com/foo/bar".toList)
                ("/dl/foo-bar.zip".toList) with
              errMsg := some (allBranchesFailedMsg
                (httpErrMsg ⟨404, "404 Not Found".toList, []⟩)) },
            ⟨["https://github.com/foo/bar/archive/refs/heads/main.zip".toList,
              "https://github.com/foo/bar/archive/refs/heads/master.zip".toList,
              "https://github.com/foo/bar/archive/HEAD.zip".toList], [], []⟩) := by
  have hb : ∀ aurl, branchFailure c10wEnv aurl
      (httpErrMsg ⟨404, "404 Not Found".toList, []⟩) := by
    intro aurl
    exact Or.inr ⟨⟨404, "404 Not Found".toList, []⟩, rfl, by decide, rfl⟩
  exact ((c10_github_repo_download c10wEnv ("https://github.com/foo/bar".toList)
    ("/dl".toList) ("foo".toList) ("bar".toList) ("/dl/foo-bar.zip".toList)
    ("https://github.com/foo/bar/archive/refs/heads/main.zip".toList)
    ("https://github.com/foo/bar/archive/refs/heads/master.zip".toList)
    ("https://github.com/foo/bar/archive/HEAD.zip".toList)
    (by decide) (by decide) (by decide) (by decide) (by decide) (by decide)
    (by decide) (by decide)).2 rfl).2.2.2 _ _ _ (hb _) (hb _) (hb _)

/-! ### C3: batching of subdirectories -/

theorem chunkList_flatten (n : Nat) (hn : 0 < n) (xs : List α) :
    (chunkList n xs).flatten = xs := by
  rw [chunkList]
  split
  · rename_i h
    rcases h with h | h
    · rw [List.isEmpty_iff] at h
      simp [h]
    · omega
  · simp only [List.flatten_cons]
    rw [chunkList_flatten n hn (xs.drop n), List.take_append_drop]
termination_by xs.length
decreasing_by
  rename_i h
  rw [not_or, List.isEmpty_iff] at h
  have := List.length_pos.mpr h.1
  simp only [List.length_drop]
  omega

theorem chunkList_length_eq (n : Nat) (hn : 0 < n) (xs : List α) :
    (chunkList n xs).length = (xs.length + n - 1) / n := by
  rw [chunkList]
  split
  · rename_i h
    rcases h with h | h
    · rw [List.isEmpty_iff] at h
      subst h
      simp only [List.length_nil, Nat.zero_add]
      exact (Nat.div_eq_of_lt (by omega)).symm
    · omega
  · rename_i h
    rw [not_or, List.isEmpty_iff] at h
    have hpos := List.length_pos.mpr h.1
    simp only [List.length_cons]
    rw [chunkList_length_eq n hn (xs.drop n)]
    simp only [List.length_drop]
    rcases Nat.lt_or_ge xs.length n with hlt | hge
    · have h1 : xs.length - n = 0 := by omega
      rw [h1]
      have h2 : (0 + n - 1) / n = 0 := Nat.div_eq_of_lt (by omega)
      rw [h2]
      have h3 : (xs.length + n - 1) / n = 1 := by
        apply Nat.div_eq_of_lt_le (by omega) (by omega)
      omega
    · have h1 : xs.length - n + n - 1 = xs.length - 1 := by omega
      have h2 : xs.length + n - 1 = (xs.length - 1) + n := by omega
      rw [h1, h2, Nat.add_div_right _ hn]
termination_by xs.length
decreasing_by
  rename_i h
  rw [not_or, List.isEmpty_iff] at h
  have := List.length_pos.mpr h.1
  simp only [List.length_drop]
  omega

theorem chunkList_mem_size (n : Nat) (hn : 0 < n) (xs : List α) (b : List α)
    (hb : b ∈ chunkList n xs) : 0 < b.length ∧ b.length ≤ n := by
  rw [chunkList] at hb
  split at hb
  · cases hb
  · rename_i h
    rw [not_or, List.isEmpty_iff] at h
    rcases List.mem_cons.mp hb with hb | hb
    · subst hb
      have := List.length_pos.mpr h.1
      constructor
      · simp only [List.length_take]
        omega
      · simp only [List.length_take]
        omega
    · exact chunkList_mem_size n hn (xs.drop n) b hb
termination_by xs.length
decreasing_by
  rename_i h
  rw [not_or, List.isEmpty_iff] at h
  have := List.length_pos.mpr h.1
  simp only [List.length_drop]
  omega

theorem chunkList_dropLast_size (n : Nat) (hn : 0 < n) (xs : List α) (b : List α)
    (hb : b ∈ (chunkList n xs).dropLast) : b.length = n := by
  rw [chunkList] at hb
  split at hb
  · cases hb
  · rename_i h
    rw [not_or, List.isEmpty_iff] at h
    by_cases hrest : chunkList n (xs.drop n) = []
    · rw [hrest] at hb
      cases hb
    · rw [List.dropLast_cons_of_ne_nil hrest] at hb
      rcases List.mem_cons.mp hb with hb | hb
      · subst hb
        have hd : xs.drop n ≠ [] := by
          intro hcon
          exact hrest (by rw [hcon, chunkList]; simp)
        have : n < xs.length := by
          by_contra hcon
          exact hd (List.drop_eq_nil_of_le (by omega))
        simp only [List.length_take]
        omega
      · exact chunkList_dropLast_size n hn (xs.drop n) b hb
termination_by xs.length
decreasing_by
  rename_i h
  rw [not_or, List.isEmpty_iff] at h
  have := List.length_pos.mpr h.1
  simp only [List.length_drop]
  omega

/-- A root with five immediate subdirectories. -/
def c3Tree : List FsEntry :=
  [.dir ("d1".toList) [], .dir ("d2".toList) [], .dir ("d3".toList) [],
   .dir ("d4".toList) [], .dir ("d5".toList) []]

/-- C3 counterexample: the claim says N subdirectories are partitioned into
exactly ceil(N/10) batches; but ceil(N/10) is the batch *size*, so for
N = 5 the code produces 5 batches of size 1 while ceil(5/10) = 1. -/
theorem c3_batch_count_counterexample :
    (chunkList (batchSizeOf (getSubdirectories ("/r".toList) c3Tree).length)
      (getSubdirectories ("/r".toList) c3Tree)).length = 5 ∧
    (5 + 9) / 10 = 1 ∧ (5 : Nat) ≠ 1 := by
  refine ⟨?_, by decide, by decide⟩
  rw [chunkList_length_eq _ (by decide) _]
  decide

/-- C3 (amended): for N > 0 immediate subdirectories the batch *size* is
ceil(N/10) and the list is partitioned into ceil(N / ceil(N/10))
consecutive batches whose concatenation is the subdirectory list, all of
size ceil(N/10) except possibly the last, which is non-empty and no larger;
for N = 0 the root is scanned non-recursively and no error is raised. -/
theorem c3_batch_structure (p : Str) (es : List FsEntry)
    (subs : List (Str × List FsEntry)) (n b : Nat)
    (hsubs : subs = getSubdirectories p es)
    (hn : n = subs.length) (hb : b = batchSizeOf n) :
    (n = 0 → scanDirectoryWithBatches p es true = scanDirectory p es false) ∧
    (0 < n →
      b = (n + 9) / 10 ∧
      (chunkList b subs).flatten = subs ∧
      (chunkList b subs).length = (n + b - 1) / b ∧
      (∀ batch ∈ (chunkList b subs).dropLast, batch.length = b) ∧
      (∀ batch ∈ chunkList b subs, 0 < batch.length ∧ batch.length ≤ b)) := by
  constructor
  · intro h0
    have hnil : getSubdirectories p es = [] := by
      rw [← hsubs]
      exact List.length_eq_zero.mp (by omega)
    simp only [scanDirectoryWithBatches, hnil, List.isEmpty_nil, if_true]
  · intro hpos
    have hb9 : b = (n + 9) / 10 := by
      have hdp : 0 < (n + 9) / 10 := Nat.div_pos (by omega) (by omega)
      rw [hb, batchSizeOf]
      rw [if_neg (by omega)]
    have hbpos : 0 < b := by
      rw [hb9]
      exact Nat.div_pos (by omega) (by omega)
    exact ⟨hb9, chunkList_flatten b hbpos subs,
      by rw [chunkList_length_eq b hbpos subs, hn],
      fun batch hb2 => chunkList_dropLast_size b hbpos subs batch hb2,
      fun batch hb2 => chunkList_mem_size b hbpos subs batch hb2⟩

/-- C3 witness: the amended theorem at the five-subdirectory tree (five
batches of one) and at an empty tree (non-recursive fallback). -/
theorem c3_batch_structure_witness :
    (chunkList (batchSizeOf 5) (getSubdirectories ("/r".toList) c3Tree)).flatten =
      getSubdirectories ("/r".toList) c3Tree ∧
    scanDirectoryWithBatches ("/r".toList) [] true =
      scanDirectory ("/r".toList) [] false := by
  constructor
  · exact ((c3_batch_structure ("/r".toList) c3Tree _ 5 (batchSizeOf 5) rfl
      (by decide) rfl).2 (by decide)).2.1
  · exact (c3_batch_structure ("/r".toList) [] [] 0 (batchSizeOf 0) rfl rfl
      rfl).1 rfl

/-! ### C2: each supported file is visited exactly once -/

theorem listHasPre_iff (pre s : Str) :
    listHasPre pre s = true ↔ ∃ t, s = pre ++ t := by
  induction pre generalizing s with
  | nil => simp [listHasPre]
  | cons p ps ih =>
    cases s with
    | nil => simp [listHasPre]
    | cons c cs =>
      simp only [listHasPre, Bool.and_eq_true, beq_iff_eq, ih, List.cons_append,
        List.cons.injEq]
      constructor
      · rintro ⟨rfl, t, rfl⟩
        exact ⟨t, rfl, rfl⟩
      · rintro ⟨t, rfl, rfl⟩
        exact ⟨rfl, t, rfl⟩

/-- The files beneath the immediate subdirectories plus the root's direct
children are, up to order, exactly the full recursive walk of the root. -/
theorem subdirs_walk_perm (es : List FsEntry) (p : Str) :
    ((getSubdirectories p es).flatMap (fun d => walkFiles d.1 d.2) ++
      scanDirectoryFlat p es).Perm (walkFiles p es) := by
  induction es with
  | nil => simp [getSubdirectories, scanDirectoryFlat, walkFiles]
  | cons e es ih =>
    cases e with
    | file n =>
      simp only [getSubdirectories, scanDirectoryFlat, walkFiles, List.filterMap_cons]
      by_cases hsup : isSupportedFile (joinPath p n) = true
      · simp only [hsup, if_true, List.singleton_append]
        exact List.perm_middle.trans (ih.cons _)
      · simp only [hsup, Bool.false_eq_true, if_false, List.nil_append]
        exact ih
    | dir n sub =>
      simp only [getSubdirectories, scanDirectoryFlat, walkFiles, List.filterMap_cons,
        List.flatMap_cons]
      rw [List.append_assoc]
      exact List.Perm.append_left _ ih

theorem flatten_map_map (g : α → List β) (ll : List (List α)) :
    (ll.map (fun l => l.map g)).flatten = ll.flatten.map g := by
  induction ll with
  | nil => rfl
  | cons l ls ih => simp only [List.map_cons, List.flatten_cons, List.map_append, ih]

/-- Batching is invisible in the emitted jobs: the batched recursive scan
emits, up to order, exactly the full recursive walk of the root. -/
theorem scanBatches_perm (p : Str) (es : List FsEntry) :
    (scanDirectoryWithBatches p es true).Perm (walkFiles p es) := by
  rw [scanDirectoryWithBatches]
  simp only [if_true]
  by_cases hsub : (getSubdirectories p es).isEmpty = true
  · rw [if_pos hsub]
    have h0 : getSubdirectories p es = [] := List.isEmpty_iff.mp hsub
    have h := subdirs_walk_perm es p
    rw [h0] at h
    exact h
  · rw [if_neg (by simp [hsub])]
    have hbpos : 0 < batchSizeOf (getSubdirectories p es).length := by
      rw [batchSizeOf]
      split
      · omega
      · rename_i h
        omega
    rw [flatten_map_map, chunkList_flatten _ hbpos]
    have hfm : ((getSubdirectories p es).map (fun d => walkFiles d.1 d.2)).flatten =
        (getSubdirectories p es).flatMap (fun d => walkFiles d.1 d.2) := by
      rw [List.flatMap_def]
    rw [hfm]
    exact subdirs_walk_perm es p

/-- A well-formed directory tree: sibling names are distinct and no name
contains the path separator (true of every real filesystem). -/
inductive WFE : FsEntry → Prop where
  | file : ∀ n, '/' ∉ n → WFE (.file n)
  | dir : ∀ n es, '/' ∉ n → (es.map FsEntry.name).Nodup →
      (∀ e ∈ es, WFE e) → WFE (.dir n es)

/-- `q` is the path of entry `e` (for files) or lies strictly below it
(for directories), relative to parent path `p`. -/
def underE (p : Str) : FsEntry → Str → Prop
  | .file n, q => q = joinPath p n
  | .dir n _, q => listHasPre (joinPath p n ++ ['/']) q = true

/-- The path segment of `q` immediately below the directory at `p`. -/
def segAfter (p q : Str) : Str :=
  (q.drop (p.length + 1)).takeWhile (fun c => c ≠ '/')

theorem segAfter_seg (p n r : Str) (hn : '/' ∉ n)
    (hr : r = [] ∨ ∃ r2, r = '/' :: r2) :
    segAfter p (joinPath p n ++ r) = n := by
  unfold segAfter joinPath
  have hdrop : ((p ++ '/' :: n) ++ r).drop (p.length + 1) = n ++ r := by
    have hsplit : (p ++ '/' :: n) ++ r = (p ++ ['/']) ++ (n ++ r) := by simp
    rw [hsplit]
    have hlen : (p ++ ['/']).length = p.length + 1 := by simp
    rw [← hlen, List.drop_left]
  rw [hdrop]
  have hall : ∀ c ∈ n, (fun c => decide (c ≠ '/')) c = true := by
    intro c hc
    simp only [decide_eq_true_eq]
    exact fun h => hn (h ▸ hc)
  rw [takeWhile_all_append _ _ _ hall]
  rcases hr with rfl | ⟨r2, rfl⟩
  · simp
  · simp [List.takeWhile_cons]

theorem under_seg (p : Str) (e : FsEntry) (q : Str) (hw : '/' ∉ e.name)
    (h : underE p e q) : segAfter p q = e.name := by
  cases e with
  | file n =>
    simp only [underE] at h
    subst h
    have hs := segAfter_seg p n [] hw (Or.inl rfl)
    simpa using hs
  | dir n sub =>
    simp only [underE] at h
    rw [listHasPre_iff] at h
    obtain ⟨t, ht⟩ := h
    rw [ht]
    have hassoc : joinPath p n ++ ['/'] ++ t = joinPath p n ++ ('/' :: t) := by simp
    rw [hassoc]
    exact segAfter_seg p n ('/' :: t) hw (Or.inr ⟨t, rfl⟩)

/-- Everything the walk of a directory emits lies strictly below it. -/
theorem prefix_walk (es : List FsEntry) (p q : Str) (h : q ∈ walkFiles p es) :
    listHasPre (p ++ ['/']) q = true := by
  match es with
  | [] => simp [walkFiles] at h
  | .file n :: es' =>
    simp only [walkFiles] at h
    rcases List.mem_append.mp h with h | h
    · split at h
      · rcases List.mem_singleton.mp h with rfl
        rw [listHasPre_iff]
        exact ⟨n, by simp [joinPath]⟩
      · cases h
    · exact prefix_walk es' p q h
  | .dir n sub :: es' =>
    simp only [walkFiles] at h
    rcases List.mem_append.mp h with h | h
    · have hsub := prefix_walk sub (joinPath p n) q h
      rw [listHasPre_iff] at hsub ⊢
      obtain ⟨t, ht⟩ := hsub
      exact ⟨n ++ '/' :: t, by simp [joinPath] at ht ⊢; simpa using ht⟩
    · exact prefix_walk es' p q h
termination_by sizeOf es

/-- Every emitted path belongs to exactly one top-level entry. -/
theorem under_mem_walk (es : List FsEntry) (p q : Str) (h : q ∈ walkFiles p es) :
    ∃ e ∈ es, underE p e q := by
  induction es with
  | nil => simp [walkFiles] at h
  | cons e es' ih =>
    cases e with
    | file n =>
      simp only [walkFiles] at h
      rcases List.mem_append.mp h with h | h
      · split at h
        · rcases List.mem_singleton.mp h with rfl
          exact ⟨.file n, List.mem_cons_self _ _, rfl⟩
        · cases h
      · obtain ⟨e, he, hu⟩ := ih h
        exact ⟨e, List.mem_cons_of_mem _ he, hu⟩
    | dir n sub =>
      simp only [walkFiles] at h
      rcases List.mem_append.mp h with h | h
      · refine ⟨.dir n sub, List.mem_cons_self _ _, ?_⟩
        have hp := prefix_walk sub (joinPath p n) q h
        exact hp
      · obtain ⟨e, he, hu⟩ := ih h
        exact ⟨e, List.mem_cons_of_mem _ he, hu⟩

/-- Over a well-formed tree, the full walk emits no path twice. -/
theorem walk_nodup (p : Str) (es : List FsEntry)
    (hn : (es.map FsEntry.name).Nodup) (hw : ∀ e ∈ es, WFE e) :
    (walkFiles p es).Nodup := by
  match es with
  | [] => simp [walkFiles]
  | .file n :: es' =>
    have hn' : (es'.map FsEntry.name).Nodup := (List.nodup_cons.mp hn).2
    have hw' : ∀ e ∈ es', WFE e := fun e he => hw e (List.mem_cons_of_mem _ he)
    have hnmem : (FsEntry.file n).name ∉ es'.map FsEntry.name :=
      (List.nodup_cons.mp hn).1
    have hslash : '/' ∉ n := by
      have hwfe := hw (.file n) (List.mem_cons_self _ _)
      cases hwfe with
      | file _ h => exact h
    have hrest := walk_nodup p es' hn' hw'
    simp only [walkFiles]
    split
    · rw [List.singleton_append, List.nodup_cons]
      refine ⟨?_, hrest⟩
      intro hmem
      obtain ⟨e, he, hu⟩ := under_mem_walk es' p _ hmem
      have hewf := hw' e he
      have heslash : '/' ∉ e.name := by
        cases hewf with
        | file _ h => exact h
        | dir _ _ h _ _ => exact h
      have h1 : segAfter p (joinPath p n) = e.name := under_seg p e _ heslash hu
      have h2 : segAfter p (joinPath p n) = n := by
        have hs := segAfter_seg p n [] hslash (Or.inl rfl)
        simpa using hs
      apply hnmem
      rw [show (FsEntry.file n).name = n from rfl, ← h2, h1]
      exact List.mem_map_of_mem _ he
    · simpa using hrest
  | .dir n sub :: es' =>
    have hn' : (es'.map FsEntry.name).Nodup := (List.nodup_cons.mp hn).2
    have hw' : ∀ e ∈ es', WFE e := fun e he => hw e (List.mem_cons_of_mem _ he)
    have hnmem : (FsEntry.dir n sub).name ∉ es'.map FsEntry.name :=
      (List.nodup_cons.mp hn).1
    have hdwf := hw (.dir n sub) (List.mem_cons_self _ _)
    obtain ⟨hslash, hsubn, hsubw⟩ : '/' ∉ n ∧ (sub.map FsEntry.name).Nodup ∧
        ∀ e ∈ sub, WFE e := by
      cases hdwf with
      | dir _ _ h1 h2 h3 => exact ⟨h1, h2, h3⟩
    have hsub := walk_nodup (joinPath p n) sub hsubn hsubw
    have hrest := walk_nodup p es' hn' hw'
    simp only [walkFiles]
    rw [List.nodup_append]
    refine ⟨hsub, hrest, ?_⟩
    intro q hq hq'
    have hu1 : underE p (.dir n sub) q := prefix_walk sub (joinPath p n) q hq
    obtain ⟨e, he, hu⟩ := under_mem_walk es' p q hq'
    have heslash : '/' ∉ e.name := by
      have hewf := hw' e he
      cases hewf with
      | file _ h => exact h
      | dir _ _ h _ _ => exact h
    have h1 : segAfter p q = e.name := under_seg p e q heslash hu
    have h2 : segAfter p q = n := under_seg p (.dir n sub) q hslash hu1
    apply hnmem
    rw [show (FsEntry.dir n sub).name = n from rfl, ← h2, h1]
    exact List.mem_map_of_mem _ he
termination_by sizeOf es

/-- C2: in non-recursive mode the scan emits exactly the supported direct
children of the root and descends into no subdirectory; in recursive mode
it emits, up to order, the supported files beneath each immediate
subdirectory plus the root's own direct children — which is exactly the
full recursive walk of the tree, each file node once — and over a
well-formed tree (distinct sibling names without separators) no path is
emitted twice. -/
theorem c2_scan_visits_each_file_once (p : Str) (es : List FsEntry) :
    scanDirectoryWithBatches p es false = scanDirectoryFlat p es ∧
    (scanDirectoryWithBatches p es true).Perm
      ((getSubdirectories p es).flatMap (fun d => walkFiles d.1 d.2) ++
        scanDirectoryFlat p es) ∧
    (scanDirectoryWithBatches p es true).Perm (walkFiles p es) ∧
    ((es.map FsEntry.name).Nodup → (∀ e ∈ es, WFE e) →
      (scanDirectoryWithBatches p es true).Nodup) := by
  refine ⟨rfl, ?_, scanBatches_perm p es, fun hn hw => ?_⟩
  · exact (scanBatches_perm p es).trans (subdirs_walk_perm es p).symm
  · exact ((scanBatches_perm p es).nodup_iff).mpr (walk_nodup p es hn hw)

/-- The tree used by the C2 witness. -/
def c2Tree : List FsEntry :=
  [.file ("a.md".toList), .dir ("d".toList) [.file ("x.txt".toList)]]

/-- C2 witness: the theorem applied to a concrete two-level tree. -/
theorem c2_scan_visits_each_file_once_witness :
    scanDirectoryWithBatches ("/r".toList) c2Tree false =
      scanDirectoryFlat ("/r".toList) c2Tree ∧
    (scanDirectoryWithBatches ("/r".toList) c2Tree true).Nodup := by
  have hwf : ∀ e ∈ c2Tree, WFE e := by
    intro e he
    rcases List.mem_cons.mp he with rfl | he
    · exact WFE.file _ (by decide)
    · rcases List.mem_singleton.mp he with rfl
      refine WFE.dir _ _ (by decide) (by decide) ?_
      intro e2 he2
      rcases List.mem_singleton.mp he2 with rfl
      exact WFE.file _ (by decide)
  have h := c2_scan_visits_each_file_once ("/r".toList) c2Tree
  exact ⟨h.1, h.2.2.2 (by decide) hwf⟩

/-! ### C1: every enqueued FileJob yields exactly one collected Result -/

/-- worker.go emits exactly one `Result` per job, whose `FilePath` is the
job's path — also when the file was unreadable or contained zero URLs. -/
theorem processFile_filePath (env : WorkerEnv) (j : Str) :
    (processFile env j).filePath = j := by
  rw [processFile]
  cases h : env.extract j with
  | error e => rfl
  | ok urls =>
    by_cases h0 : urls.length = 0
    · simp [h0]
    · simp [h0]

theorem busyJobs_nil : busyJobs [] = [] := rfl

theorem busyJobs_cons (x : WStatus) (ws : List WStatus) :
    busyJobs (x :: ws) =
      (match x with | .busy j => [j] | _ => []) ++ busyJobs ws := by
  cases x <;> simp [busyJobs, List.filterMap_cons]

theorem busyJobs_replicate_idle (w : Nat) :
    busyJobs (List.replicate w .idle) = [] := by
  induction w with
  | zero => rfl
  | succ n ih => simpa [List.replicate_succ, busyJobs_cons] using ih

theorem busyJobs_all_done (ws : List WStatus) (h : ∀ x ∈ ws, x = .done) :
    busyJobs ws = [] := by
  induction ws with
  | nil => rfl
  | cons x ws ih =>
    have hx := h x (List.mem_cons_self _ _)
    subst hx
    rw [busyJobs_cons]
    simpa using ih (fun y hy => h y (List.mem_cons_of_mem _ hy))

theorem busyJobs_set_busy (ws : List WStatus) (i : Nat) (j : Str)
    (h : ws.get? i = some .idle) :
    (busyJobs (ws.set i (.busy j))).Perm (j :: busyJobs ws) := by
  induction ws generalizing i with
  | nil => simp at h
  | cons x ws ih =>
    cases i with
    | zero =>
      rw [List.get?_cons_zero] at h
      injection h with h
      subst h
      simp [List.set, busyJobs_cons]
    | succ i =>
      rw [List.get?_cons_succ] at h
      rw [List.set_cons_succ, busyJobs_cons, busyJobs_cons]
      cases x with
      | idle => simpa using ih i h
      | busy k =>
        simp only [List.cons_append, List.nil_append]
        exact ((ih i h).cons k).trans (List.Perm.swap _ _ _)
      | done => simpa using ih i h

theorem busyJobs_set_idle (ws : List WStatus) (i : Nat) (j : Str)
    (h : ws.get? i = some (.busy j)) :
    (busyJobs ws).Perm (j :: busyJobs (ws.set i .idle)) := by
  induction ws generalizing i with
  | nil => simp at h
  | cons x ws ih =>
    cases i with
    | zero =>
      rw [List.get?_cons_zero] at h
      injection h with h
      subst h
      simp [List.set, busyJobs_cons]
    | succ i =>
      rw [List.get?_cons_succ] at h
      rw [List.set_cons_succ, busyJobs_cons, busyJobs_cons]
      cases x with
      | idle => simpa using ih i h
      | busy k =>
        simp only [List.cons_append, List.nil_append]
        exact ((ih i h).cons k).trans (List.Perm.swap _ _ _)
      | done => simpa using ih i h

theorem busyJobs_set_done (ws : List WStatus) (i : Nat)
    (h : ws.get? i = some .idle) :
    busyJobs (ws.set i .done) = busyJobs ws := by
  induction ws generalizing i with
  | nil => simp at h
  | cons x ws ih =>
    cases i with
    | zero =>
      rw [List.get?_cons_zero] at h
      injection h with h
      subst h
      simp [List.set, busyJobs_cons]
    | succ i =>
      rw [List.get?_cons_succ] at h
      rw [List.set_cons_succ, busyJobs_cons, busyJobs_cons, ih i h]

/-- The pipeline invariant: worker count is stable; every job of `jobs0` is
accounted for exactly once across the scanner's backlog, the job queue, the
busy workers, the result queue and the collected results; a closed job
queue means scanning is finished; quiescent workers mean the job queue was
closed and drained; the result queue is closed only after every worker has
signalled completion; and the collector finishes only after the closed
result queue is drained. -/
structure PInv (jobs0 : List Str) (w : Nat) (s : PipeState) : Prop where
  wlen : s.workers.length = w
  account : (s.pending ++ s.jobQueue ++ busyJobs s.workers ++
    s.resultQueue.map Result.filePath ++ s.collected.map Result.filePath).Perm jobs0
  closed_pending : s.jobsClosed = true → s.pending = []
  done_quiesce : (∀ x ∈ s.workers, x = .done) → 0 < w →
    s.jobQueue = [] ∧ s.jobsClosed = true
  rclosed : s.resultsClosed = true → (∀ x ∈ s.workers, x = .done) ∧ s.jobsClosed = true
  cdone : s.collectorDone = true → s.resultsClosed = true ∧ s.resultQueue = []

theorem not_all_done_of_set (ws : List WStatus) (i : Nat) (v : WStatus)
    (hv : v ≠ .done) (hi : i < ws.length) (hall : ∀ x ∈ ws.set i v, x = .done) :
    False :=
  hv (hall v (List.mem_set ws i hi v))

theorem get?_lt {ws : List WStatus} {i : Nat} {v : WStatus}
    (h : ws.get? i = some v) : i < ws.length :=
  List.get?_eq_some.mp h |>.1

theorem pstep_preserves (env : WorkerEnv) (jobs0 : List Str) (w : Nat)
    (s t : PipeState) (hs : PInv jobs0 w s) (hstep : PStep env s t) :
    PInv jobs0 w t := by
  obtain ⟨hlen, hacc, hcp, hdq, hrc, hcd⟩ := hs
  cases hstep with
  | enqueue j rest hpend hc hq =>
    refine ⟨hlen, ?_, ?_, ?_, hrc, hcd⟩
    · refine List.Perm.trans ?_ hacc
      show (rest ++ (s.jobQueue ++ [j]) ++ busyJobs s.workers ++
        s.resultQueue.map Result.filePath ++ s.collected.map Result.filePath).Perm _
      rw [hpend, ← Multiset.coe_eq_coe]
      simp only [← Multiset.coe_add, ← Multiset.cons_coe, Multiset.coe_nil]
      simp only [← Multiset.singleton_add]
      abel
    · intro h
      have h2 : s.jobsClosed = true := h
      rw [hc] at h2
      cases h2
    · intro hall hw2
      have hall2 : ∀ x ∈ s.workers, x = WStatus.done := hall
      rcases hdq hall2 hw2 with ⟨h1, h2⟩
      rw [h2] at hc
      cases hc
  | closeJobs hpend hc =>
    refine ⟨hlen, hacc, fun _ => hpend, ?_, ?_, hcd⟩
    · intro hall hw2
      have hall2 : ∀ x ∈ s.workers, x = WStatus.done := hall
      exact ⟨(hdq hall2 hw2).1, rfl⟩
    · intro h
      have h2 : s.resultsClosed = true := h
      exact ⟨(hrc h2).1, rfl⟩
  | dequeue i j rest hi hq =>
    refine ⟨by simpa using hlen, ?_, hcp, ?_, ?_, hcd⟩
    · refine List.Perm.trans ?_ hacc
      show (s.pending ++ rest ++ busyJobs (s.workers.set i (.busy j)) ++
        s.resultQueue.map Result.filePath ++ s.collected.map Result.filePath).Perm _
      rw [hq]
      have hB := busyJobs_set_busy s.workers i j hi
      rw [← Multiset.coe_eq_coe] at hB ⊢
      simp only [← Multiset.coe_add, ← Multiset.cons_coe, Multiset.coe_nil] at hB ⊢
      rw [hB]
      simp only [← Multiset.singleton_add]
      abel
    · intro hall _
      exact absurd hall (fun hall =>
        not_all_done_of_set _ i _ (by simp) (get?_lt hi) hall)
    · intro h
      have h2 : s.resultsClosed = true := h
      rcases hrc h2 with ⟨hall, _⟩
      have hmem := hall _ (List.get?_mem hi)
      cases hmem
  | finishJob i j hi hq =>
    refine ⟨by simpa using hlen, ?_, hcp, ?_, ?_, ?_⟩
    · refine List.Perm.trans ?_ hacc
      show (s.pending ++ s.jobQueue ++ busyJobs (s.workers.set i .idle) ++
        (s.resultQueue ++ [processFile env j]).map Result.filePath ++
        s.collected.map Result.filePath).Perm _
      have hB := busyJobs_set_idle s.workers i j hi
      have hmap : (s.resultQueue ++ [processFile env j]).map Result.filePath =
          s.resultQueue.map Result.filePath ++ [j] := by
        simp [processFile_filePath]
      rw [hmap]
      rw [← Multiset.coe_eq_coe] at hB ⊢
      simp only [← Multiset.coe_add, ← Multiset.cons_coe, Multiset.coe_nil] at hB ⊢
      rw [hB]
      simp only [← Multiset.singleton_add]
      abel
    · intro hall _
      exact absurd hall (fun hall =>
        not_all_done_of_set _ i _ (by simp) (get?_lt hi) hall)
    · intro h
      have h2 : s.resultsClosed = true := h
      rcases hrc h2 with ⟨hall, _⟩
      have hmem := hall _ (List.get?_mem hi)
      cases hmem
    · intro h
      have h2 : s.collectorDone = true := h
      rcases hcd h2 with ⟨h1, _⟩
      rcases hrc h1 with ⟨hall, _⟩
      have hmem := hall _ (List.get?_mem hi)
      cases hmem
  | workerExit i hi hc hq =>
    refine ⟨by simpa using hlen, ?_, hcp, ?_, ?_, hcd⟩
    · refine List.Perm.trans ?_ hacc
      show (s.pending ++ s.jobQueue ++ busyJobs (s.workers.set i .done) ++
        s.resultQueue.map Result.filePath ++ s.collected.map Result.filePath).Perm _
      rw [busyJobs_set_done s.workers i hi]
    · intro _ _
      exact ⟨hq, hc⟩
    · intro h
      have h2 : s.resultsClosed = true := h
      rcases hrc h2 with ⟨hall, _⟩
      have hmem := hall _ (List.get?_mem hi)
      cases hmem
  | closeResults hc hall hr =>
    refine ⟨hlen, hacc, hcp, ?_, fun _ => ⟨hall, hc⟩, ?_⟩
    · intro hall2 hw2
      exact hdq hall2 hw2
    · intro h
      have h2 : s.collectorDone = true := h
      rcases hcd h2 with ⟨h1, _⟩
      rw [h1] at hr
      cases hr
  | collect r rest hq =>
    refine ⟨hlen, ?_, hcp, ?_, ?_, ?_⟩
    · refine List.Perm.trans ?_ hacc
      show (s.pending ++ s.jobQueue ++ busyJobs s.workers ++
        rest.map Result.filePath ++
        (s.collected ++ [r]).map Result.filePath).Perm _
      rw [hq]
      rw [← Multiset.coe_eq_coe]
      simp only [List.map_append, List.map_cons, List.map_nil]
      simp only [← Multiset.coe_add, ← Multiset.cons_coe, Multiset.coe_nil]
      simp only [← Multiset.singleton_add]
      abel
    · intro hall hw2
      have hall2 : ∀ x ∈ s.workers, x = WStatus.done := hall
      exact hdq hall2 hw2
    · intro h
      have h2 : s.resultsClosed = true := h
      exact hrc h2
    · intro h
      have h2 : s.collectorDone = true := h
      rcases hcd h2 with ⟨_, h3⟩
      rw [hq] at h3
      cases h3
  | collectorExit hr hq =>
    exact ⟨hlen, hacc, hcp, hdq, hrc, fun _ => ⟨hr, hq⟩⟩

theorem init_inv (env : WorkerEnv) (jobs0 : List Str) (w : Nat) (hw : 0 < w) :
    PInv jobs0 w (initState jobs0 w) := by
  refine ⟨by simp [initState], ?_, ?_, ?_, ?_, ?_⟩
  · show (jobs0 ++ [] ++ busyJobs (List.replicate w .idle) ++ [] ++ []).Perm jobs0
    rw [busyJobs_replicate_idle]
    simp
  · intro h
    cases h
  · intro hall _
    have hmem : WStatus.idle ∈ List.replicate w WStatus.idle :=
      List.mem_replicate.mpr ⟨by omega, rfl⟩
    have := hall _ hmem
    cases this
  · intro h
    cases h
  · intro h
    cases h

theorem reach_inv (env : WorkerEnv) (jobs0 : List Str) (w : Nat) (hw : 0 < w)
    (s : PipeState) (hr : Reaches env (initState jobs0 w) s) :
    PInv jobs0 w s := by
  induction hr with
  | refl => exact init_inv env jobs0 w hw
  | tail hsteps hstep ih => exact pstep_preserves env jobs0 w _ _ ih hstep

/-- C1: in every reachable state of the pipeline the result queue is closed
only after every worker has signalled completion; and when shutdown
completes (the collector has finished), the collected Results are — as a
multiset — exactly one Result per enqueued FileJob: no job and no in-flight
Result is dropped.  Each Worker emits exactly one Result per dequeued job
(`finishJob` pushes `processFile env j`, which also covers unreadable and
zero-URL files, see `processFile_filePath`). -/
theorem c1_pipeline_delivers_every_job (env : WorkerEnv) (jobs0 : List Str) (w : Nat) (hw : 0 < w)
    (s : PipeState) (hr : Reaches env (initState jobs0 w) s) :
    (s.resultsClosed = true → ∀ x ∈ s.workers, x = .done) ∧
    (s.collectorDone = true → (s.collected.map Result.filePath).Perm jobs0) := by
  have hinv := reach_inv env jobs0 w hw s hr
  refine ⟨fun h => (hinv.rclosed h).1, fun h => ?_⟩
  rcases hinv.cdone h with ⟨h1, h2⟩
  rcases hinv.rclosed h1 with ⟨hall, h3⟩
  rcases hinv.done_quiesce hall hw with ⟨h4, h5⟩
  have h6 := hinv.closed_pending h5
  have hacc := hinv.account
  rw [h2, h4, h6, busyJobs_all_done s.workers hall] at hacc
  simpa using hacc

/-- A worker environment whose extractions yield no URLs. -/
def c1wEnv : WorkerEnv := ⟨fun _ => .ok [], fun _ _ => baseResult [] []⟩

def c1Job : Str := "/r/a.md".toList

/-- C1 witness: a complete concrete execution with one job and one worker,
run through the theorem at its terminal state. -/
theorem c1_pipeline_delivers_every_job_witness :
    (([processFile c1wEnv c1Job]).map Result.filePath).Perm [c1Job] := by
  have step1 : PStep c1wEnv (initState [c1Job] 1)
      ⟨[], [c1Job], false, [.idle], [], false, [], false⟩ :=
    PStep.enqueue _ c1Job [] rfl rfl (by decide)
  have step2 : PStep c1wEnv ⟨[], [c1Job], false, [.idle], [], false, [], false⟩
      ⟨[], [], false, [.busy c1Job], [], false, [], false⟩ :=
    PStep.dequeue _ 0 c1Job [] rfl rfl
  have step3 : PStep c1wEnv ⟨[], [], false, [.busy c1Job], [], false, [], false⟩
      ⟨[], [], false, [.idle], [processFile c1wEnv c1Job], false, [], false⟩ :=
    PStep.finishJob _ 0 c1Job rfl (by decide)
  have step4 : PStep c1wEnv
      ⟨[], [], false, [.idle], [processFile c1wEnv c1Job], false, [], false⟩
      ⟨[], [], true, [.idle], [processFile c1wEnv c1Job], false, [], false⟩ :=
    PStep.closeJobs _ rfl rfl
  have step5 : PStep c1wEnv
      ⟨[], [], true, [.idle], [processFile c1wEnv c1Job], false, [], false⟩
      ⟨[], [], true, [.done], [processFile c1wEnv c1Job], false, [], false⟩ :=
    PStep.workerExit _ 0 rfl rfl rfl
  have step6 : PStep c1wEnv
      ⟨[], [], true, [.done], [processFile c1wEnv c1Job], false, [], false⟩
      ⟨[], [], true, [.done], [processFile c1wEnv c1Job], true, [], false⟩ :=
    PStep.closeResults _ rfl (by intro x hx; rcases List.mem_singleton.mp hx with rfl; rfl) rfl
  have step7 : PStep c1wEnv
      ⟨[], [], true, [.done], [processFile c1wEnv c1Job], true, [], false⟩
      ⟨[], [], true, [.done], [], true, [processFile c1wEnv c1Job], false⟩ :=
    PStep.collect _ (processFile c1wEnv c1Job) [] rfl
  have step8 : PStep c1wEnv
      ⟨[], [], true, [.done], [], true, [processFile c1wEnv c1Job], false⟩
      ⟨[], [], true, [.done], [], true, [processFile c1wEnv c1Job], true⟩ :=
    PStep.collectorExit _ rfl rfl
  have hreach : Reaches c1wEnv (initState [c1Job] 1)
      ⟨[], [], true, [.done], [], true, [processFile c1wEnv c1Job], true⟩ :=
    Relation.ReflTransGen.head step1 (Relation.ReflTransGen.head step2
      (Relation.ReflTransGen.head step3 (Relation.ReflTransGen.head step4
        (Relation.ReflTransGen.head step5 (Relation.ReflTransGen.head step6
          (Relation.ReflTransGen.head step7 (Relation.ReflTransGen.head step8
            Relation.ReflTransGen.refl)))))))
  exact (c1_pipeline_delivers_every_job c1wEnv [c1Job] 1 (by omega) _ hreach).2 rfl

end ArchiveDownloader
